import Mathlib

/-!
Verification of the proseva graph-construction pipeline
(`packages/embeddings/src`): the text chunker (`text/chunker.rs`), the
node builder (`graph/nodes.rs`) and the edge builder / citation
extractor (`graph/edges.rs`).

Modelling conventions:
* Rust `&str`/`String` text is modelled as `List Char`; byte offsets are
  computed with `Char.utf8Size`, so offsets agree with Rust's byte
  indices into UTF-8 strings.  Short label/key fields (section numbers,
  source tags, relation names) stay `String`.
* Rust `usize` becomes `Nat`, `i64` becomes `Int`.
* A Rust function that can panic or loop forever is modelled with
  `Option`: `none` stands for "no value is ever returned" (panic or
  divergence).  The only loop whose termination depends on its
  arguments (`split_by_words`) is written with explicit fuel; the
  wrapper passes fuel that provably suffices for every terminating
  execution of the Rust loop.
-/

/-- Rust `char::is_whitespace` (Unicode White_Space property). -/
def isWS (c : Char) : Bool :=
  c.toNat = 0x09 || c.toNat = 0x0A || c.toNat = 0x0B || c.toNat = 0x0C ||
  c.toNat = 0x0D || c.toNat = 0x20 || c.toNat = 0x85 || c.toNat = 0xA0 ||
  c.toNat = 0x1680 || (0x2000 ≤ c.toNat && c.toNat ≤ 0x200A) ||
  c.toNat = 0x2028 || c.toNat = 0x2029 || c.toNat = 0x202F ||
  c.toNat = 0x205F || c.toNat = 0x3000

/-- ASCII decimal digit (models `\d` of the citation regexes on the
inputs at hand). -/
def isDigitCh (c : Char) : Bool := '0' ≤ c && c ≤ '9'

/-- Byte length of a text, as Rust `str::len` (UTF-8 bytes). -/
def byteLen : List Char → Nat
  | [] => 0
  | c :: t => c.utf8Size + byteLen t

/-- Auxiliary for `byteSlice`: walk the text keeping track of the byte
position of each character. -/
def byteSliceGo (a b : Nat) : List Char → Nat → List Char
  | [], _ => []
  | c :: t, pos =>
    if b ≤ pos then []
    else if a ≤ pos then c :: byteSliceGo a b t (pos + c.utf8Size)
    else byteSliceGo a b t (pos + c.utf8Size)

/-- Rust `&text[a..b]`: the substring between byte offsets `a` and `b`
(the offsets used by the chunker always fall on character boundaries). -/
def byteSlice (l : List Char) (a b : Nat) : List Char := byteSliceGo a b l 0

/-- Rust `str::trim_start` (drop leading whitespace). -/
def trimL (l : List Char) : List Char := l.dropWhile (fun c => isWS c)

/-- Rust `str::trim` (drop leading and trailing whitespace). -/
def trimList (l : List Char) : List Char :=
  ((trimL l).reverse.dropWhile (fun c => isWS c)).reverse

/-- Character scan behind `splitWSOff`: walk the text accumulating the
pending word (its start offset and its characters so far, reversed) and
emit each maximal nonempty whitespace-free run. -/
def splitWSGo : List Char → Nat → Option (Nat × List Char) → List (Nat × List Char)
  | [], _, none => []
  | [], _, some (o, w) => [(o, w.reverse)]
  | c :: t, pos, none =>
    if isWS c then splitWSGo t (pos + c.utf8Size) none
    else splitWSGo t (pos + c.utf8Size) (some (pos, [c]))
  | c :: t, pos, some (o, w) =>
    if isWS c then (o, w.reverse) :: splitWSGo t (pos + c.utf8Size) none
    else splitWSGo t (pos + c.utf8Size) (some (o, c :: w))

/-- Rust `str::split_whitespace`, additionally returning the byte offset
of each word inside the input — exactly the `(offset, w)` pairs that
`split_by_words` computes with pointer arithmetic. -/
def splitWSOff (l : List Char) (pos : Nat) : List (Nat × List Char) :=
  splitWSGo l pos none

/-- `approx_token_count` from `text/chunker.rs`:
`text.split_whitespace().count()`. -/
def approx_token_count (text : List Char) : Nat := (splitWSOff text 0).length

/-- `ChunkSpan` from `text/chunker.rs`. -/
structure ChunkSpan where
  text : List Char
  char_start : Nat
  char_end : Nat
deriving DecidableEq, Repr

/-- `SentenceSpan` from `text/chunker.rs`. -/
structure SentenceSpan where
  text : List Char
  byte_start : Nat
  byte_end : Nat
deriving DecidableEq, Repr

/-- The character loop of `split_sentences`, threading the byte
position, the accumulated current sentence and the recorded start of
the current sentence. -/
def split_sentences_go : List Char → Nat → List Char → Option Nat → List SentenceSpan
  | [], pos, current, cstart =>
    let t := trimList current
    if t = [] then [] else [⟨t, cstart.getD 0, pos⟩]
  | ch :: rest, pos, current, cstart =>
    let cstart' := if cstart.isNone && !isWS ch then some pos else cstart
    let current' := current ++ [ch]
    if (ch = '.' || ch = '?' || ch = '!') && decide (1 < byteLen current') then
      let t := trimList current'
      (if t = [] then [] else [⟨t, cstart'.getD pos, pos + ch.utf8Size⟩])
        ++ split_sentences_go rest (pos + ch.utf8Size) [] none
    else split_sentences_go rest (pos + ch.utf8Size) current' cstart'

/-- `split_sentences` from `text/chunker.rs`: split on `.`/`?`/`!`,
tracking byte offsets into the original string. -/
def split_sentences (text : List Char) : List SentenceSpan :=
  split_sentences_go text 0 [] none

/-- Join a list of texts with single spaces
(`spans.iter().map(..).collect::<Vec<_>>().join(" ")`). -/
def joinSpace : List (List Char) → List Char
  | [] => []
  | [t] => t
  | t :: rest => t ++ ' ' :: joinSpace rest

/-- `spans_to_chunk` from `text/chunker.rs`. -/
def spans_to_chunk (spans : List SentenceSpan) : ChunkSpan :=
  { text := joinSpace (spans.map (·.text))
    char_start := ((spans.head?).map (·.byte_start)).getD 0
    char_end := ((spans.getLast?).map (·.byte_end)).getD 0 }

/-- The overlap-construction loop of `chunk_text` (lines 64–75): walk
the closed chunk from the end, taking sentences while the running token
sum stays within `overlap_tokens`.  Takes the reversed chunk. -/
def build_overlap_rev (overlap_tokens : Nat) : List SentenceSpan → Nat → List SentenceSpan
  | [], _ => []
  | s :: rest, acc =>
    let sl := approx_token_count s.text
    if overlap_tokens < acc + sl then []
    else s :: build_overlap_rev overlap_tokens rest (acc + sl)

/-- The overlap seed built from the end of a closed chunk (`chunk_text`
lines 64–75): the reversed greedy walk, reversed back into order. -/
def build_overlap (chunk : List SentenceSpan) (overlap_tokens : Nat) : List SentenceSpan :=
  (build_overlap_rev overlap_tokens chunk.reverse 0).reverse

/-- Token sum of a sentence list, as accumulated in `current_len` /
`overlap_len` of `chunk_text`. -/
def tokenSum (spans : List SentenceSpan) : Nat :=
  (spans.map (fun s => approx_token_count s.text)).sum

/-- The `while start < words.len()` loop of `split_by_words`, with
explicit fuel.  `none` models a panic (the `words[end - 1]` index
underflow when `end = 0`, i.e. `max_tokens = 0`) or fuel exhaustion;
the wrapper's fuel provably covers every terminating Rust execution. -/
def split_by_words_loop (text : List Char) (base_offset max_tokens overlap_tokens : Nat)
    (words : List (Nat × List Char)) : Nat → Nat → Option (List ChunkSpan)
  | 0, _ => none
  | fuel + 1, start =>
    if start < words.length then
      let e := min (start + max_tokens) words.length
      if e = 0 then none
      else
        let cs := (words.getD start (0, [])).1
        let lw := words.getD (e - 1) (0, [])
        let ce := lw.1 + byteLen lw.2
        let chunk : ChunkSpan :=
          ⟨byteSlice text cs ce, base_offset + cs, base_offset + ce⟩
        if words.length ≤ e then some [chunk]
        else
          (split_by_words_loop text base_offset max_tokens overlap_tokens words
            fuel (e - overlap_tokens)).map (chunk :: ·)
    else some []

/-- `split_by_words` from `text/chunker.rs`: force-split a long sentence
into windows of `max_tokens` words with `overlap_tokens` words of
back-overlap.  The loop is run with fuel `words.length + 1`, which
suffices for every terminating execution of the Rust loop (each
iteration either breaks or, when it terminates at all, advances `start`
by at least one); `none` is returned exactly when the Rust code panics
(`max_tokens = 0` with a nonempty word list) or loops forever
(`overlap_tokens ≥ max_tokens` with the window short of the end). -/
def split_by_words (text : List Char) (base_offset max_tokens overlap_tokens : Nat) :
    Option (List ChunkSpan) :=
  let words := splitWSOff text 0
  if words.isEmpty then some []
  else split_by_words_loop text base_offset max_tokens overlap_tokens words
    (words.length + 1) 0

/-- The `for sentence in &sentences` loop of `chunk_text`, threading
`chunks` (the accumulator), `current_chunk` and `current_len`. -/
def chunk_text_loop (max_tokens overlap_tokens : Nat) :
    List SentenceSpan → List SentenceSpan → Nat → List ChunkSpan → Option (List ChunkSpan)
  | [], current_chunk, _, chunks =>
    some (chunks ++ if current_chunk.isEmpty then [] else [spans_to_chunk current_chunk])
  | s :: rest, current_chunk, current_len, chunks =>
    let sent_len := approx_token_count s.text
    if max_tokens < sent_len then
      let chunks' := chunks ++ if current_chunk.isEmpty then [] else [spans_to_chunk current_chunk]
      match split_by_words s.text s.byte_start max_tokens overlap_tokens with
      | none => none
      | some ws => chunk_text_loop max_tokens overlap_tokens rest [] 0 (chunks' ++ ws)
    else if max_tokens < current_len + sent_len && !current_chunk.isEmpty then
      let chunks' := chunks ++ [spans_to_chunk current_chunk]
      let overlap_chunk := build_overlap current_chunk overlap_tokens
      chunk_text_loop max_tokens overlap_tokens rest (overlap_chunk ++ [s])
        (tokenSum overlap_chunk + sent_len) chunks'
    else
      chunk_text_loop max_tokens overlap_tokens rest (current_chunk ++ [s])
        (current_len + sent_len) chunks

/-- `chunk_text` from `text/chunker.rs`: split text into overlapping
chunks of approximately `max_tokens` tokens.  `none` models a Rust
execution that panics or never returns (see `split_by_words`). -/
def chunk_text (text : List Char) (max_tokens overlap_tokens : Nat) :
    Option (List ChunkSpan) :=
  if approx_token_count text ≤ max_tokens then
    some [⟨text, 0, byteLen text⟩]
  else chunk_text_loop max_tokens overlap_tokens (split_sentences text) [] 0 []

/-- A chunk produced by the force-split path of `chunk_text`: it came
out of `split_by_words` applied to a single sentence whose own token
count exceeds `max_tokens`. -/
def ForceSplit (sentences : List SentenceSpan) (max_tokens overlap_tokens : Nat)
    (c : ChunkSpan) : Prop :=
  ∃ s ∈ sentences, max_tokens < approx_token_count s.text ∧
    ∃ ws, split_by_words s.text s.byte_start max_tokens overlap_tokens = some ws ∧
      c ∈ ws

/-! ### Citation extraction (`graph/edges.rs`)

The three regexes compiled in `build_citation_edges` /
`build_document_reference_edges` are modelled by direct scanning
functions with the regex crate's leftmost-first, non-overlapping
`captures_iter` semantics.  `\d` is modelled as an ASCII digit and `\s`
as Unicode whitespace.  `extract_section_refs` takes the three regexes
as parameters in Rust; every caller passes these same three patterns,
so the model bakes them in. -/

/-- Character class `[\d.,\s\-and]` of the plural-citation regex. -/
def isPluralClass (c : Char) : Bool :=
  isDigitCh c || c = '.' || c = ',' || isWS c || c = '-' ||
  c = 'a' || c = 'n' || c = 'd'

/-- Greedy `\d+` at the head: the digit run and the rest, or `none` if
the head is not a digit. -/
def matchDigits (l : List Char) : Option (List Char × List Char) :=
  let d := l.takeWhile isDigitCh
  if d.isEmpty then none else some (d, l.dropWhile isDigitCh)

/-- Greedy `(?:\.\d+)*` at the head: the consumed text and the rest.
The fuel argument only bounds the number of `.digits` groups (each
consumes at least two characters), so `fuel = length of the input`
never alters the result. -/
def matchDotted : Nat → List Char → List Char × List Char
  | 0, l => ([], l)
  | fuel + 1, l =>
    match l with
    | '.' :: t =>
      let d := t.takeWhile isDigitCh
      if d.isEmpty then ([], '.' :: t)
      else
        let (c, r) := matchDotted fuel (t.dropWhile isDigitCh)
        ('.' :: d ++ c, r)
    | l => ([], l)

/-- The section-number pattern `\d+(?:\.\d+)*-\d+(?:\.\d+)*` at the
head of the input: the matched number and the rest. -/
def matchSecNum (l : List Char) : Option (List Char × List Char) :=
  match matchDigits l with
  | none => none
  | some (d1, r1) =>
    let (dot1, r2) := matchDotted r1.length r1
    match r2 with
    | '-' :: r3 =>
      match matchDigits r3 with
      | none => none
      | some (d2, r4) =>
        let (dot2, r5) := matchDotted r4.length r4
        some (d1 ++ dot1 ++ '-' :: d2 ++ dot2, r5)
    | _ => none

/-- `find_iter` of the bare section-number pattern (the inner regex of
the plural pass): leftmost, non-overlapping matches. -/
def findNums : Nat → List Char → List String
  | 0, _ => []
  | _ + 1, [] => []
  | fuel + 1, l =>
    match matchSecNum l with
    | some (num, rest) => num.asString :: findNums fuel rest
    | none => findNums fuel l.tail

/-- The singular pattern `§\s*(\d+(?:\.\d+)*-\d+(?:\.\d+)*)` at the
head of the input: the captured number and the rest after the match. -/
def matchSectionAt : List Char → Option (List Char × List Char)
  | '§' :: t => matchSecNum (t.dropWhile isWS)
  | _ => none

/-- `captures_iter` of the singular section regex. -/
def findSections : Nat → List Char → List String
  | 0, _ => []
  | _ + 1, [] => []
  | fuel + 1, l =>
    match matchSectionAt l with
    | some (num, rest) => num.asString :: findSections fuel rest
    | none => findSections fuel l.tail

/-- The plural pattern `§§\s*([\d.,\s\-and]+)` at the head of the
input: the captured list text and the rest after the match.  (When the
class run after the whitespace is empty the regex can still match a
whitespace-only capture by backtracking `\s*`; such a capture contains
no section number, so modelling it as a failed match extracts the same
references.) -/
def matchPluralAt : List Char → Option (List Char × List Char)
  | '§' :: '§' :: t =>
    let t' := t.dropWhile isWS
    let run := t'.takeWhile isPluralClass
    if run.isEmpty then none else some (run, t'.dropWhile isPluralClass)
  | _ => none

/-- `captures_iter` of the plural section regex. -/
def findPlurals : Nat → List Char → List (List Char)
  | 0, _ => []
  | _ + 1, [] => []
  | fuel + 1, l =>
    match matchPluralAt l with
    | some (run, rest) => run :: findPlurals fuel rest
    | none => findPlurals fuel l.tail

/-- `/vacode/([^/'"]+)` at the head of the input: the captured trailing
path component and the rest. -/
def matchVacode (l : List Char) : Option (List Char × List Char) :=
  match l with
  | '/' :: 'v' :: 'a' :: 'c' :: 'o' :: 'd' :: 'e' :: '/' :: t =>
    let cap := t.takeWhile (fun c => !(c = '/' || c = '\'' || c = '"'))
    if cap.isEmpty then none else some (cap, t.dropWhile (fun c => !(c = '/' || c = '\'' || c = '"')))
  | _ => none

/-- The lazy `.*?/vacode/([^/'"]+)` tail of the href regex: scan
forward for the earliest position where `/vacode/` plus a nonempty
capture matches, consuming no newline (`.` does not match `\n`). -/
def hrefScanLazy : Nat → List Char → Option (List Char × List Char)
  | 0, _ => none
  | fuel + 1, l =>
    match matchVacode l with
    | some r => some r
    | none =>
      match l with
      | [] => none
      | c :: t => if c = '\n' then none else hrefScanLazy fuel t

/-- The href pattern `href.*?/vacode/([^/'"]+)` at the head of the
input. -/
def matchHrefAt : List Char → Option (List Char × List Char)
  | 'h' :: 'r' :: 'e' :: 'f' :: t => hrefScanLazy (t.length + 1) t
  | _ => none

/-- `captures_iter` of the href regex. -/
def findHrefs : Nat → List Char → List String
  | 0, _ => []
  | _ + 1, [] => []
  | fuel + 1, l =>
    match matchHrefAt l with
    | some (cap, rest) => cap.asString :: findHrefs fuel rest
    | none => findHrefs fuel l.tail

/-- Tail of Rust `Vec::dedup`: drop elements equal to the previously
retained element `prev`. -/
def dedupConsecGo (prev : String) : List String → List String
  | [] => []
  | b :: t => if b = prev then dedupConsecGo prev t else b :: dedupConsecGo b t

/-- Rust `Vec::dedup`: collapse runs of consecutive equal elements to
their first element. -/
def dedupConsec : List String → List String
  | [] => []
  | a :: t => a :: dedupConsecGo a t

/-- Lexicographic comparison of character lists — the order Rust's
`str` comparison induces (UTF-8 byte order equals code-point order). -/
def charListLe : List Char → List Char → Bool
  | [], _ => true
  | _ :: _, [] => false
  | a :: as, b :: bs => if a < b then true else if b < a then false else charListLe as bs

/-- `String` order used by `refs.sort()` in `extract_section_refs`. -/
def strRefLe (a b : String) : Prop := charListLe a.data b.data = true

instance : DecidableRel strRefLe := fun a b => by
  unfold strRefLe; infer_instance

/-- `extract_section_refs` from `graph/edges.rs`: href-based, singular
and plural citation passes, then `refs.sort(); refs.dedup()`. -/
def extract_section_refs (text : List Char) : List String :=
  let refs :=
    findHrefs (text.length + 1) text ++
    findSections (text.length + 1) text ++
    (findPlurals (text.length + 1) text).flatMap
      (fun run => findNums (run.length + 1) run)
  dedupConsec (refs.insertionSort strRefLe)

/-! ### Graph data model (`graph/nodes.rs`, `graph/edges.rs`) -/

/-- `Node` from `graph/nodes.rs`. -/
structure Node where
  id : Int
  source : String
  source_id : String
  chunk_idx : Int
  node_type : String
  synthetic : Bool
deriving DecidableEq, Repr

/-- `ChunkMeta` from `graph/nodes.rs`. -/
structure ChunkMeta where
  node_id : Int
  char_start : Nat
  char_end : Nat
deriving DecidableEq, Repr

/-- `Edge` from `graph/edges.rs`.  The `weight : Option<f64>` field is
never set by this module (every constructor writes `None`), so the
value type is modelled as `Unit`. -/
structure Edge where
  from_id : Int
  to_id : Int
  rel_type : String
  weight : Option Unit
deriving DecidableEq, Repr

/-- `VirginiaCodeRow` from `db/reader.rs`. -/
structure VirginiaCodeRow where
  id : Int
  title_num : String
  title_name : String
  chapter_num : String
  chapter_name : String
  «section» : String
  title : List Char
  body : List Char
deriving DecidableEq, Repr

/-- `ConstitutionRow` from `db/reader.rs`. -/
structure ConstitutionRow where
  id : Int
  article_id : Int
  article : String
  article_name : String
  section_name : List Char
  section_title : List Char
  section_text : List Char
  section_count : Int
deriving DecidableEq, Repr

/-- `DocumentRow` from `db/reader.rs`. -/
structure DocumentRow where
  id : Int
  dataset : String
  filename : String
  title : List Char
  content : List Char
deriving DecidableEq, Repr

/-- `HashMap::get` on the lookup table, modelled as an association list
with unique keys. -/
def lookupGet (lookup : List ((String × String) × List Int)) (k : String × String) :
    Option (List Int) :=
  (lookup.find? (fun e => e.1 == k)).map (·.2)

/-- `HashMap::get` on the `node_id -> text` map. -/
def textsGet (texts : List (Int × List Char)) (k : Int) : Option (List Char) :=
  (texts.find? (fun e => e.1 == k)).map (·.2)

/-- The nested fan-out loops of `build_hierarchy_edges`: one edge from
every node of the parent key to every node of the child key. -/
def fanOut (from_ids to_ids : List Int) (rel : String) : List Edge :=
  from_ids.flatMap (fun f => to_ids.map (fun t => ⟨f, t, rel, none⟩))

/-- `build_hierarchy_edges` from `graph/edges.rs`. -/
def build_hierarchy_edges (lookup : List ((String × String) × List Int))
    (code_rows : List VirginiaCodeRow) (constitution_rows : List ConstitutionRow) :
    List Edge :=
  code_rows.flatMap (fun row =>
    let title_key := ("virginia_code", row.title_num)
    let ch_key := ("virginia_code", row.title_num ++ ":" ++ row.chapter_num)
    let section_key := ("virginia_code", row.«section»)
    (match lookupGet lookup title_key, lookupGet lookup ch_key with
     | some title_ids, some ch_ids => fanOut title_ids ch_ids "contains"
     | _, _ => []) ++
    (match lookupGet lookup ch_key, lookupGet lookup section_key with
     | some ch_ids, some sec_ids => fanOut ch_ids sec_ids "contains"
     | _, _ => []))
  ++ constitution_rows.flatMap (fun row =>
    let article_key := ("constitution", "article:" ++ toString row.article_id)
    let section_key :=
      ("constitution", toString row.article_id ++ ":" ++ toString row.section_count)
    match lookupGet lookup article_key, lookupGet lookup section_key with
    | some art_ids, some sec_ids => fanOut art_ids sec_ids "contains"
    | _, _ => [])

/-- `build_citation_edges` from `graph/edges.rs`. -/
def build_citation_edges (nodes : List Node)
    (lookup : List ((String × String) × List Int)) (texts : List (Int × List Char)) :
    List Edge :=
  nodes.flatMap (fun node =>
    if node.node_type ≠ "section" ∧ node.node_type ≠ "constitution_section" ∧
        node.node_type ≠ "authority" ∧ node.node_type ≠ "popular_name" then []
    else
      match textsGet texts node.id with
      | none => []
      | some text =>
        (extract_section_refs text).flatMap (fun section_ref =>
          match lookupGet lookup ("virginia_code", section_ref) with
          | none => []
          | some target_ids =>
            target_ids.filterMap (fun tid =>
              if tid ≠ node.id then some ⟨node.id, tid, "cites", none⟩ else none)))

/-- `build_document_reference_edges` from `graph/edges.rs`.  (The final
`for node in nodes` loop over `manual_chunk` nodes in the source has an
empty body and is omitted.) -/
def build_document_reference_edges (lookup : List ((String × String) × List Int))
    (document_rows : List DocumentRow) : List Edge :=
  document_rows.flatMap (fun row =>
    match lookupGet lookup ("documents", row.filename) with
    | none => []
    | some doc_node_ids =>
      (extract_section_refs row.content).flatMap (fun section_ref =>
        match lookupGet lookup ("virginia_code", section_ref) with
        | none => []
        | some target_ids =>
          match doc_node_ids.head? with
          | none => []
          | some first_doc_id =>
            target_ids.map (fun tid => ⟨first_doc_id, tid, "references", none⟩)))

/-- The `(from_id, to_id, rel_type)` sort key of `build_edges`,
lexicographic exactly as the chained `cmp(..).then(..)` comparator
(String order in Lean agrees with Rust's byte order on UTF-8). -/
def edgeKey (e : Edge) : Int ×ₗ (Int ×ₗ String) :=
  toLex (e.from_id, toLex (e.to_id, e.rel_type))

/-- The comparator passed to `edges.sort_by` in `build_edges`. -/
def edgeLe (a b : Edge) : Prop := edgeKey a ≤ edgeKey b

instance : DecidableRel edgeLe := fun a b => by
  unfold edgeLe; infer_instance

/-- Rust `Vec::dedup_by` with the `(from_id, to_id, rel_type)` equality
closure of `build_edges`: drop an element equal to the previously
retained one. -/
def dedupEdges : List Edge → List Edge
  | [] => []
  | [a] => [a]
  | a :: b :: t =>
    if b.from_id = a.from_id ∧ b.to_id = a.to_id ∧ b.rel_type = a.rel_type then
      dedupEdges (a :: t)
    else a :: dedupEdges (b :: t)

/-- `build_edges` from `graph/edges.rs`: hierarchy, citation and
document-reference edges, then sort by `(from_id, to_id, rel_type)` and
collapse adjacent duplicates.  (`sort_by` is a stable sort, as is
`List.insertionSort`, so the two agree exactly.) -/
def build_edges (nodes : List Node) (lookup : List ((String × String) × List Int))
    (code_rows : List VirginiaCodeRow) (constitution_rows : List ConstitutionRow)
    (document_rows : List DocumentRow) (texts : List (Int × List Char)) : List Edge :=
  let edges :=
    build_hierarchy_edges lookup code_rows constitution_rows ++
    build_citation_edges nodes lookup texts ++
    build_document_reference_edges lookup document_rows
  dedupEdges (edges.insertionSort edgeLe)

/-! ### Node construction (`graph/nodes.rs`)

`build_nodes` consumes the cleaned DataFrames of `etl/mod.rs`; each
DataFrame is modelled as a list of records carrying the columns that
`build_nodes` reads.  The iteration order over the `titles_seen` /
`chapters_seen` / `articles_seen` HashMaps is unspecified in Rust; the
model uses first-insertion order (this affects only which `id` a
synthetic node receives, not any property proved here).  `none` models
a run in which `chunk_text` panics or never returns. -/

/-- A row of the cleaned `virginia_code` DataFrame. -/
structure VCodeCleanRow where
  «section» : String
  title_num : String
  title_name : String
  chapter_num : String
  chapter_name : String
  clean_text : List Char
deriving DecidableEq, Repr

/-- A row of the cleaned `constitution` DataFrame. -/
structure ConstCleanRow where
  article_id : Int
  article_name : String
  section_count : Int
  clean_text : List Char
deriving DecidableEq, Repr

/-- A row of the cleaned `authorities` DataFrame. -/
structure AuthCleanRow where
  short_name : String
  clean_text : List Char
deriving DecidableEq, Repr

/-- A row of the cleaned `courts` DataFrame. -/
structure CourtCleanRow where
  id : Int
  clean_text : List Char
deriving DecidableEq, Repr

/-- A row of the cleaned `popular_names` DataFrame. -/
structure PopNameCleanRow where
  name : String
  clean_text : List Char
deriving DecidableEq, Repr

/-- A row of the cleaned `documents` DataFrame. -/
structure DocCleanRow where
  filename : String
  clean_text : List Char
deriving DecidableEq, Repr

/-- `CleanedData` from `etl/mod.rs` (the columns used by `build_nodes`). -/
structure CleanedData where
  virginia_code : List VCodeCleanRow
  constitution : List ConstCleanRow
  authorities : List AuthCleanRow
  courts : List CourtCleanRow
  popular_names : List PopNameCleanRow
  documents : List DocCleanRow
deriving DecidableEq, Repr

/-- `NodeBuildResult` from `graph/nodes.rs`. -/
structure NodeBuildResult where
  nodes : List Node
  lookup : List ((String × String) × List Int)
  texts : List (Int × List Char)
  chunk_meta : List ChunkMeta
deriving DecidableEq, Repr

/-- The mutable state threaded through `build_nodes`. -/
structure BuildSt where
  nodes : List Node
  lookup : List ((String × String) × List Int)
  texts : List (Int × List Char)
  chunk_meta : List ChunkMeta
  next_id : Int
deriving DecidableEq, Repr

/-- `lookup.entry(key).or_default().push(id)`. -/
def lookupPush : List ((String × String) × List Int) → (String × String) → Int →
    List ((String × String) × List Int)
  | [], k, id => [(k, [id])]
  | e :: rest, k, id =>
    if e.1 == k then (e.1, e.2 ++ [id]) :: rest else e :: lookupPush rest k id

/-- First-seen key/value collection (`if !seen.contains_key(k) { insert }`),
in insertion order. -/
def firstSeen {α β : Type} [BEq α] : List (α × β) → List (α × β) → List (α × β)
  | [], acc => acc
  | (k, v) :: rest, acc =>
    firstSeen rest (if acc.any (fun e => e.1 == k) then acc else acc ++ [(k, v)])

/-- The `titles_seen` map of `build_nodes`: distinct nonempty
`title_num` with the first-seen `title_name`. -/
def titlesSeen (rows : List VCodeCleanRow) : List (String × String) :=
  firstSeen (rows.filterMap (fun r =>
    if r.title_num = "" then none else some (r.title_num, r.title_name))) []

/-- The `chapters_seen` map of `build_nodes`: distinct
`"{title_num}:{chapter_num}"` keys (nonempty `chapter_num`) with the
first-seen `chapter_name`. -/
def chaptersSeen (rows : List VCodeCleanRow) : List (String × String) :=
  firstSeen (rows.filterMap (fun r =>
    if r.chapter_num = "" then none
    else some (r.title_num ++ ":" ++ r.chapter_num, r.chapter_name))) []

/-- The `articles_seen` map of `build_nodes`:
`articles_seen.entry(article_id).or_insert(article_name)`. -/
def articlesSeen (rows : List ConstCleanRow) : List (Int × String) :=
  firstSeen (rows.map (fun r => (r.article_id, r.article_name))) []

/-- Append one synthetic node (title/chapter/article loops of
`build_nodes`). -/
def addSynthNode (source node_type : String) (st : BuildSt) (kv : String × String) :
    BuildSt :=
  { nodes := st.nodes ++ [⟨st.next_id, source, kv.1, 0, node_type, true⟩]
    lookup := lookupPush st.lookup (source, kv.1) st.next_id
    texts := st.texts ++ [(st.next_id, kv.2.toList)]
    chunk_meta := st.chunk_meta
    next_id := st.next_id + 1 }

/-- One of the synthetic-node loops of `build_nodes`. -/
def addSynthNodes (source node_type : String) (keyNames : List (String × String))
    (st : BuildSt) : BuildSt :=
  keyNames.foldl (addSynthNode source node_type) st

/-- One chunk iteration of a content-record loop of `build_nodes`:
append the chunk node, register it in the lookup and text maps, and
record offset metadata (`metaAlways` is true for the documents table,
which records metadata unconditionally; the other tables record it only
when the record split into more than one chunk — `chunks.len() > 1`). -/
def addChunkNode (source node_type key : String) (withMeta : Bool) (st : BuildSt)
    (p : Nat × ChunkSpan) : BuildSt :=
  { nodes := st.nodes ++ [⟨st.next_id, source, key, (p.1 : Int), node_type, false⟩]
    lookup := lookupPush st.lookup (source, key) st.next_id
    texts := st.texts ++ [(st.next_id, p.2.text)]
    chunk_meta := st.chunk_meta ++
      (if withMeta then [⟨st.next_id, p.2.char_start, p.2.char_end⟩] else [])
    next_id := st.next_id + 1 }

/-- A content-record body of `build_nodes`: chunk the cleaned text and
emit one node per chunk. -/
def addChunkNodes (source node_type key : String) (text : List Char)
    (metaAlways : Bool) (st : BuildSt) : Option BuildSt :=
  (chunk_text text 500 50).map (fun chunks =>
    chunks.enum.foldl
      (addChunkNode source node_type key (metaAlways || decide (1 < chunks.length))) st)

/-- `Option`-threading fold over the rows of one table. -/
def foldRowsM {α : Type} (f : α → BuildSt → Option BuildSt) :
    List α → BuildSt → Option BuildSt
  | [], st => some st
  | r :: rest, st => (f r st).bind (foldRowsM f rest)

/-- The Virginia Code section loop body of `build_nodes`. -/
def vcSectionStep (r : VCodeCleanRow) (st : BuildSt) : Option BuildSt :=
  if r.«section» = "" then some st
  else addChunkNodes "virginia_code" "section" r.«section» r.clean_text false st

/-- The constitution section loop body of `build_nodes`. -/
def constSectionStep (r : ConstCleanRow) (st : BuildSt) : Option BuildSt :=
  addChunkNodes "constitution" "constitution_section"
    (toString r.article_id ++ ":" ++ toString r.section_count) r.clean_text false st

/-- The authorities loop body of `build_nodes`. -/
def authStep (r : AuthCleanRow) (st : BuildSt) : Option BuildSt :=
  if r.short_name = "" then some st
  else addChunkNodes "authorities" "authority" r.short_name r.clean_text false st

/-- The courts loop body of `build_nodes` (no chunking). -/
def courtStep (st : BuildSt) (r : CourtCleanRow) : BuildSt :=
  { nodes := st.nodes ++ [⟨st.next_id, "courts", toString r.id, 0, "court", false⟩]
    lookup := lookupPush st.lookup ("courts", toString r.id) st.next_id
    texts := st.texts ++ [(st.next_id, r.clean_text)]
    chunk_meta := st.chunk_meta
    next_id := st.next_id + 1 }

/-- The popular-names loop body of `build_nodes`. -/
def popStep (r : PopNameCleanRow) (st : BuildSt) : Option BuildSt :=
  if r.name = "" then some st
  else addChunkNodes "popular_names" "popular_name" r.name r.clean_text false st

/-- The documents loop body of `build_nodes` (offset metadata recorded
for every chunk). -/
def docStep (r : DocCleanRow) (st : BuildSt) : Option BuildSt :=
  if r.filename = "" then some st
  else addChunkNodes "documents" "manual_chunk" r.filename r.clean_text true st

/-- `build_nodes` from `graph/nodes.rs`. -/
def build_nodes (cleaned : CleanedData) : Option NodeBuildResult :=
  let st0 : BuildSt := ⟨[], [], [], [], 1⟩
  let st1 := addSynthNodes "virginia_code" "title" (titlesSeen cleaned.virginia_code) st0
  let st2 := addSynthNodes "virginia_code" "chapter" (chaptersSeen cleaned.virginia_code) st1
  (foldRowsM vcSectionStep cleaned.virginia_code st2).bind (fun st3 =>
  let st4 := addSynthNodes "constitution" "article"
    ((articlesSeen cleaned.constitution).map
      (fun p => ("article:" ++ toString p.1, p.2))) st3
  (foldRowsM constSectionStep cleaned.constitution st4).bind (fun st5 =>
  (foldRowsM authStep cleaned.authorities st5).bind (fun st6 =>
  let st7 := cleaned.courts.foldl courtStep st6
  (foldRowsM popStep cleaned.popular_names st7).bind (fun st8 =>
  (foldRowsM docStep cleaned.documents st8).map (fun st9 =>
    ⟨st9.nodes, st9.lookup, st9.texts, st9.chunk_meta⟩)))))

/-! ### Derived key lists for the uniqueness analysis of `build_nodes` -/

/-- The `(source, source_id, chunk_idx)` triple of a node — the triple
the data-model invariant says is unique. -/
def nodeKey (n : Node) : String × String × Int := (n.source, n.source_id, n.chunk_idx)

/-- Number of chunks `chunk_text` produces with the fixed 500/50 policy
of `build_nodes` (0 if `chunk_text` does not return). -/
def numChunks (text : List Char) : Nat := ((chunk_text text 500 50).getD []).length

/-- The triples of the chunk nodes of one content record. -/
def rangeKeys (source key : String) (n : Nat) : List (String × String × Int) :=
  (List.range n).map (fun i => (source, key, Int.ofNat i))

/-- Triples of all Virginia Code nodes, in emission order. -/
def vcKeyList (rows : List VCodeCleanRow) : List (String × String × Int) :=
  (titlesSeen rows).map (fun p => ("virginia_code", p.1, (0 : Int)))
  ++ (chaptersSeen rows).map (fun p => ("virginia_code", p.1, (0 : Int)))
  ++ rows.flatMap (fun r =>
    if r.«section» = "" then []
    else rangeKeys "virginia_code" r.«section» (numChunks r.clean_text))

/-- Triples of all constitution nodes, in emission order. -/
def constKeyList (rows : List ConstCleanRow) : List (String × String × Int) :=
  (articlesSeen rows).map (fun p => ("constitution", "article:" ++ toString p.1, (0 : Int)))
  ++ rows.flatMap (fun r =>
    rangeKeys "constitution" (toString r.article_id ++ ":" ++ toString r.section_count)
      (numChunks r.clean_text))

/-- Triples of all authority nodes, in emission order. -/
def authKeyList (rows : List AuthCleanRow) : List (String × String × Int) :=
  rows.flatMap (fun r =>
    if r.short_name = "" then []
    else rangeKeys "authorities" r.short_name (numChunks r.clean_text))

/-- Triples of all court nodes, in emission order. -/
def courtKeyList (rows : List CourtCleanRow) : List (String × String × Int) :=
  rows.map (fun r => ("courts", toString r.id, (0 : Int)))

/-- Triples of all popular-name nodes, in emission order. -/
def popKeyList (rows : List PopNameCleanRow) : List (String × String × Int) :=
  rows.flatMap (fun r =>
    if r.name = "" then []
    else rangeKeys "popular_names" r.name (numChunks r.clean_text))

/-- Triples of all document nodes, in emission order. -/
def docKeyList (rows : List DocCleanRow) : List (String × String × Int) :=
  rows.flatMap (fun r =>
    if r.filename = "" then []
    else rangeKeys "documents" r.filename (numChunks r.clean_text))

/-- Triples of all nodes emitted by `build_nodes`, in emission order. -/
def allKeyList (c : CleanedData) : List (String × String × Int) :=
  vcKeyList c.virginia_code ++ constKeyList c.constitution ++
  authKeyList c.authorities ++ courtKeyList c.courts ++
  popKeyList c.popular_names ++ docKeyList c.documents

/-- Structural keys of the section records `build_nodes` keeps
(nonempty `section`). -/
def vcSectionKeys (rows : List VCodeCleanRow) : List String :=
  (rows.filter (fun r => r.«section» ≠ "")).map (·.«section»)

/-- Synthetic title keys. -/
def vcTitleKeys (rows : List VCodeCleanRow) : List String :=
  (titlesSeen rows).map (·.1)

/-- Synthetic chapter keys. -/
def vcChapterKeys (rows : List VCodeCleanRow) : List String :=
  (chaptersSeen rows).map (·.1)

/-- Synthetic article keys. -/
def constArticleKeys (rows : List ConstCleanRow) : List String :=
  (articlesSeen rows).map (fun p => "article:" ++ toString p.1)

/-- Constitution section keys. -/
def constSectionKeys (rows : List ConstCleanRow) : List String :=
  rows.map (fun r => toString r.article_id ++ ":" ++ toString r.section_count)

/-- Authority keys (nonempty `short_name`). -/
def authKeys (rows : List AuthCleanRow) : List String :=
  (rows.filter (fun r => r.short_name ≠ "")).map (·.short_name)

/-- Court keys. -/
def courtKeys (rows : List CourtCleanRow) : List String :=
  rows.map (fun r => toString r.id)

/-- Popular-name keys (nonempty `name`). -/
def popKeys (rows : List PopNameCleanRow) : List String :=
  (rows.filter (fun r => r.name ≠ "")).map (·.name)

/-- Document keys (nonempty `filename`). -/
def docKeys (rows : List DocCleanRow) : List String :=
  (rows.filter (fun r => r.filename ≠ "")).map (·.filename)

/-- The data-model uniqueness invariant: no two distinct nodes agree on
`(source, source_id, chunk_idx)`. -/
def tripleUnique (nodes : List Node) : Prop :=
  nodes.Pairwise (fun a b =>
    ¬(a.source = b.source ∧ a.source_id = b.source_id ∧ a.chunk_idx = b.chunk_idx))

instance (nodes : List Node) : Decidable (tripleUnique nodes) := by
  unfold tripleUnique; infer_instance

instance {α : Type} [DecidableEq α] (l₁ l₂ : List α) :
    Decidable (List.Disjoint l₁ l₂) :=
  decidable_of_iff (∀ a ∈ l₁, a ∉ l₂)
    ⟨fun h _ ha hb => h _ ha hb, fun h _ ha hb => h ha hb⟩

/-- The node list of `build_nodes` (empty if `build_nodes` does not
return). -/
def nodesOf (c : CleanedData) : List Node :=
  ((build_nodes c).map (·.nodes)).getD []

/-- The chunk-offset metadata of `build_nodes` (empty if `build_nodes`
does not return). -/
def metaOf (c : CleanedData) : List ChunkMeta :=
  ((build_nodes c).map (·.chunk_meta)).getD []

/-- Invariant for C10: every node from the documents table has a
chunk-offset metadata entry bearing its node id. -/
def DocMetaInv (st : BuildSt) : Prop :=
  ∀ n ∈ st.nodes, n.source = "documents" →
    ∃ m ∈ st.chunk_meta, m.node_id = n.id

/-- Well-formedness of a sentence span with respect to the total byte
length `T` of the original text: offsets are ordered and in bounds, and
the (trimmed) sentence text fits between them. -/
def SentOK (T : Nat) (s : SentenceSpan) : Prop :=
  s.byte_start ≤ s.byte_end ∧ s.byte_end ≤ T ∧
    s.byte_start + byteLen s.text ≤ s.byte_end

/-- The chunk-span invariant of the data model:
`char_start ≤ char_end ≤ len(text)`. -/
def ChunkOK (T : Nat) (c : ChunkSpan) : Prop :=
  c.char_start ≤ c.char_end ∧ c.char_end ≤ T

/-! ### Basic lemmas about byte lengths and slices -/

theorem byteLen_append (a b : List Char) : byteLen (a ++ b) = byteLen a + byteLen b := by
  induction a with
  | nil => simp [byteLen]
  | cons c t ih => simp [byteLen, ih]; omega

theorem byteLen_pos_of_ne_nil {l : List Char} (h : l ≠ []) : 0 < byteLen l := by
  cases l with
  | nil => exact absurd rfl h
  | cons c t => have := c.utf8Size_pos; simp [byteLen]; omega

theorem byteSliceGo_all {b : Nat} (l : List Char) (pos : Nat)
    (hb : pos + byteLen l ≤ b) : byteSliceGo 0 b l pos = l := by
  induction l generalizing pos with
  | nil => rfl
  | cons c t ih =>
    have hpos := c.utf8Size_pos
    simp only [byteLen] at hb
    rw [byteSliceGo, if_neg (by omega), if_pos (Nat.zero_le _), ih _ (by omega)]

/-- Slicing a text from byte 0 to its byte length returns it verbatim. -/
theorem byteSlice_zero_len (l : List Char) : byteSlice l 0 (byteLen l) = l :=
  byteSliceGo_all l 0 (by omega)

/-! ### Word-count lemmas -/

theorem splitWSGo_length_congr :
    ∀ (l : List Char) (p q : Nat) (st st' : Option (Nat × List Char)),
      st.isSome = st'.isSome →
      (splitWSGo l p st).length = (splitWSGo l q st').length := by
  intro l
  induction l with
  | nil =>
    intro p q st st' h
    match st, st' with
    | none, none => rfl
    | some (o, w), some (o', w') => rfl
  | cons c t ih =>
    intro p q st st' h
    match st, st' with
    | none, none =>
      by_cases hc : isWS c <;> simp only [splitWSGo, hc, if_true, if_false] <;>
        exact ih _ _ _ _ rfl
    | some (o, w), some (o', w') =>
      by_cases hc : isWS c <;> simp only [splitWSGo, hc, if_true, if_false, List.length_cons]
      · exact congrArg (· + 1) (ih _ _ _ _ rfl)
      · exact ih _ _ _ _ rfl

theorem splitWSGo_append_space :
    ∀ (a : List Char) (p : Nat) (st : Option (Nat × List Char)) (b : List Char),
      (splitWSGo (a ++ ' ' :: b) p st).length
        = (splitWSGo a p st).length + (splitWSGo b 0 none).length := by
  intro a
  induction a with
  | nil =>
    intro p st b
    have hws : isWS ' ' = true := by decide
    match st with
    | none =>
      simp only [List.nil_append, splitWSGo, hws, if_true, List.length_nil]
      have h := splitWSGo_length_congr b (p + ' '.utf8Size) 0 none none rfl
      omega
    | some (o, w) =>
      simp only [List.nil_append, splitWSGo, hws, if_true, List.length_cons,
        List.length_nil]
      have h := splitWSGo_length_congr b (p + ' '.utf8Size) 0 none none rfl
      omega
  | cons c t ih =>
    intro p st b
    match st with
    | none =>
      by_cases hc : isWS c <;>
        simp only [List.cons_append, splitWSGo, hc, if_true, if_false] <;>
        exact ih _ _ b
    | some (o, w) =>
      by_cases hc : isWS c <;>
        simp only [List.cons_append, List.append_eq, splitWSGo, hc, if_true, if_false,
          List.length_cons]
      · have h := ih (p + c.utf8Size) none b
        simp only [List.append_eq] at h
        omega
      · exact ih _ _ b

theorem approx_append_space (a b : List Char) :
    approx_token_count (a ++ ' ' :: b)
      = approx_token_count a + approx_token_count b :=
  splitWSGo_append_space a 0 none b

theorem approx_joinSpace (ts : List (List Char)) :
    approx_token_count (joinSpace ts) = (ts.map approx_token_count).sum := by
  induction ts with
  | nil => simp [joinSpace, approx_token_count, splitWSOff, splitWSGo]
  | cons t rest ih =>
    cases rest with
    | nil => simp [joinSpace]
    | cons u r =>
      have hj : joinSpace (t :: u :: r) = t ++ ' ' :: joinSpace (u :: r) := rfl
      rw [hj, approx_append_space, ih]
      simp

theorem approx_spans_to_chunk (spans : List SentenceSpan) :
    approx_token_count (spans_to_chunk spans).text = tokenSum spans := by
  simp only [spans_to_chunk, tokenSum, approx_joinSpace, List.map_map]
  rfl

theorem tokenSum_append (a b : List SentenceSpan) :
    tokenSum (a ++ b) = tokenSum a + tokenSum b := by
  simp [tokenSum]

theorem tokenSum_reverse (l : List SentenceSpan) :
    tokenSum l.reverse = tokenSum l := by
  simp [tokenSum, List.sum_reverse]

theorem build_overlap_rev_bound (ov : Nat) :
    ∀ (l : List SentenceSpan) (acc : Nat), acc ≤ ov →
      acc + tokenSum (build_overlap_rev ov l acc) ≤ ov := by
  intro l
  induction l with
  | nil => intro acc h; simpa [build_overlap_rev, tokenSum] using h
  | cons s rest ih =>
    intro acc h
    rw [build_overlap_rev]
    by_cases hc : ov < acc + approx_token_count s.text
    · simpa [hc, tokenSum] using h
    · rw [if_neg hc]
      have := ih (acc + approx_token_count s.text) (by omega)
      simp only [tokenSum, List.map_cons, List.sum_cons] at this ⊢
      omega

theorem build_overlap_bound (chunk : List SentenceSpan) (ov : Nat) :
    tokenSum (build_overlap chunk ov) ≤ ov := by
  have := build_overlap_rev_bound ov chunk.reverse 0 (Nat.zero_le _)
  rw [build_overlap, tokenSum_reverse]
  omega

/-! ### C6: the overlap seed never exceeds the overlap budget -/

/-- C6: whenever `chunk_text` closes a chunk on overflow, the overlap
seed carried into the next chunk — `build_overlap current_chunk
overlap_tokens`, the trailing sentences of the closed chunk taken from
the end in order — has an approximate token count (whitespace-word
count of the seed text) of at most `overlap_tokens`. -/
theorem build_overlap_tokens_le (chunk : List SentenceSpan) (overlap_tokens : Nat) :
    approx_token_count (joinSpace ((build_overlap chunk overlap_tokens).map (·.text)))
      ≤ overlap_tokens := by
  have h := build_overlap_bound chunk overlap_tokens
  calc approx_token_count (joinSpace ((build_overlap chunk overlap_tokens).map (·.text)))
      = tokenSum (build_overlap chunk overlap_tokens) := by
        rw [approx_joinSpace, tokenSum, List.map_map]; rfl
    _ ≤ overlap_tokens := h

/-! ### C3: texts within the token budget yield one verbatim span -/

/-- C3: for every text `t` with `approx_token_count t ≤ max_tokens`,
`chunk_text` returns exactly one span with `char_start = 0`,
`char_end = len t` and `text = t` verbatim, and slicing `t` at those
byte offsets reconstructs the chunk exactly. -/
theorem chunk_text_single_span (t : List Char) (max_tokens overlap_tokens : Nat)
    (h : approx_token_count t ≤ max_tokens) :
    chunk_text t max_tokens overlap_tokens = some [⟨t, 0, byteLen t⟩] ∧
      byteSlice t 0 (byteLen t) = t :=
  ⟨by rw [chunk_text, if_pos h], byteSlice_zero_len t⟩

/-- C3 witness at a concrete input. -/
theorem chunk_text_single_span_witness :
    chunk_text "This is short.".toList 500 50
        = some [⟨"This is short.".toList, 0, byteLen "This is short.".toList⟩] ∧
      byteSlice "This is short.".toList 0 (byteLen "This is short.".toList)
        = "This is short.".toList :=
  chunk_text_single_span "This is short.".toList 500 50 (by decide)

/-! ### C7: empty input -/

/-- C7 counterexample: on empty input `chunk_text` does not return an
empty chunk list — it produces exactly one chunk (with empty text and
span `0..0`). -/
theorem chunk_text_empty_not_nil :
    chunk_text [] 500 50 = some [⟨[], 0, 0⟩] ∧
      ((chunk_text [] 500 50).getD []).length = 1 := by
  constructor <;> rfl

/-- C7 amended: for empty input (and any parameters) `chunk_text`
returns exactly one chunk whose text is empty and whose span is
`char_start = char_end = 0` — an empty chunk, not an empty chunk list. -/
theorem chunk_text_empty (max_tokens overlap_tokens : Nat) :
    chunk_text [] max_tokens overlap_tokens = some [⟨[], 0, 0⟩] := by
  rw [chunk_text, if_pos]
  · rfl
  · show approx_token_count [] ≤ max_tokens
    simp [approx_token_count, splitWSOff, splitWSGo]

/-! ### C2: termination of `chunk_text` -/

/-- C2 counterexample: `chunk_text` is not total.  On `"a b c d e"`
with `max_tokens = overlap_tokens = 2` the `split_by_words` loop never
advances (`start = end - overlap` returns to 0) and the Rust code loops
forever; with `max_tokens = 0` the `words[end - 1]` index computation
panics.  Both executions return no value. -/
theorem chunk_text_divergence :
    chunk_text "a b c d e".toList 2 2 = none ∧
      chunk_text "a b".toList 0 0 = none := by
  constructor <;> rfl

theorem split_by_words_loop_total (text : List Char) (base max_tokens ov : Nat)
    (words : List (Nat × List Char)) (hmax : 1 ≤ max_tokens) (hov : ov < max_tokens) :
    ∀ (fuel start : Nat), words.length - start < fuel →
      (split_by_words_loop text base max_tokens ov words fuel start).isSome := by
  intro fuel
  induction fuel with
  | zero => intro start h; omega
  | succ fuel ih =>
    intro start hfuel
    rw [split_by_words_loop]
    by_cases h : start < words.length
    · rw [if_pos h]
      have he : ¬(min (start + max_tokens) words.length = 0) := by omega
      rw [if_neg he]
      by_cases hend : words.length ≤ min (start + max_tokens) words.length
      · rw [if_pos hend]; rfl
      · rw [if_neg hend]
        have hlt : start + max_tokens < words.length := by omega
        have hmin : min (start + max_tokens) words.length = start + max_tokens := by
          omega
        rw [Option.isSome_map']
        have := ih (min (start + max_tokens) words.length - ov) (by omega)
        exact this
    · rw [if_neg h]; rfl

theorem split_by_words_total (text : List Char) (base max_tokens ov : Nat)
    (hov : ov < max_tokens) :
    (split_by_words text base max_tokens ov).isSome := by
  rw [split_by_words]
  by_cases h : (splitWSOff text 0).isEmpty
  · rw [if_pos h]; rfl
  · rw [if_neg h]
    exact split_by_words_loop_total text base max_tokens ov _ (by omega) hov _ 0
      (by omega)

theorem chunk_text_loop_total (max_tokens ov : Nat) (hov : ov < max_tokens) :
    ∀ (rest current_chunk : List SentenceSpan) (current_len : Nat)
      (chunks : List ChunkSpan),
      (chunk_text_loop max_tokens ov rest current_chunk current_len chunks).isSome := by
  intro rest
  induction rest with
  | nil => intro c l ch; rw [chunk_text_loop]; rfl
  | cons s rest ih =>
    intro c l ch
    rw [chunk_text_loop]
    by_cases h1 : max_tokens < approx_token_count s.text
    · rw [if_pos h1]
      have h2 := split_by_words_total s.text s.byte_start max_tokens ov hov
      obtain ⟨ws, hws⟩ := Option.isSome_iff_exists.mp h2
      rw [hws]
      exact ih _ _ _
    · rw [if_neg h1]
      by_cases h3 : max_tokens < l + approx_token_count s.text ∧ ¬c.isEmpty
      · rw [if_pos (by simpa [decide_eq_true_eq] using h3)]
        exact ih _ _ _
      · rw [if_neg (by simpa [decide_eq_true_eq] using h3)]
        exact ih _ _ _

/-- C2 amended: `chunk_text` terminates with a (finite) chunk list for
every input text whenever `overlap_tokens < max_tokens` — in particular
for the fixed 500/50 policy the pipeline uses.  As stated the claim is
false: for `overlap_tokens ≥ max_tokens` the force-split loop of
`split_by_words` can fail to advance and the Rust code loops forever,
and for `max_tokens = 0` it panics (see `chunk_text_divergence`). -/
theorem chunk_text_total (text : List Char) (max_tokens overlap_tokens : Nat)
    (hov : overlap_tokens < max_tokens) :
    (chunk_text text max_tokens overlap_tokens).isSome := by
  rw [chunk_text]
  by_cases h : approx_token_count text ≤ max_tokens
  · rw [if_pos h]; rfl
  · rw [if_neg h]
    exact chunk_text_loop_total max_tokens overlap_tokens hov _ _ _ _

/-- C2 witness: the totality theorem applied at a concrete input. -/
theorem chunk_text_total_witness :
    (chunk_text "One sentence. And another one here.".toList 500 50).isSome :=
  chunk_text_total "One sentence. And another one here.".toList 500 50 (by decide)

/-! ### C5: token bound on accumulated chunks -/

theorem tokenSum_single (s : SentenceSpan) :
    tokenSum [s] = approx_token_count s.text := by
  simp [tokenSum]

theorem chunk_text_loop_tokens (max_tokens ov : Nat) (S : List SentenceSpan) :
    ∀ (rest cur : List SentenceSpan) (clen : Nat) (acc : List ChunkSpan),
      rest ⊆ S → clen = tokenSum cur → tokenSum cur ≤ max_tokens + ov →
      (∀ c ∈ acc, approx_token_count c.text ≤ max_tokens + ov ∨
        ForceSplit S max_tokens ov c) →
      ∀ r, chunk_text_loop max_tokens ov rest cur clen acc = some r →
      ∀ c ∈ r, approx_token_count c.text ≤ max_tokens + ov ∨
        ForceSplit S max_tokens ov c := by
  intro rest
  induction rest with
  | nil =>
    intro cur clen acc _ _ hbound hacc r hr c hc
    rw [chunk_text_loop] at hr
    obtain rfl : _ = r := Option.some.inj hr
    rcases List.mem_append.mp hc with h | h
    · exact hacc c h
    · by_cases hcur : cur.isEmpty
      · rw [if_pos hcur] at h
        exact absurd h (List.not_mem_nil c)
      · rw [if_neg hcur, List.mem_singleton] at h
        subst h
        exact Or.inl (by rw [approx_spans_to_chunk]; exact hbound)
  | cons s rest ih =>
    intro cur clen acc hsub hlen hbound hacc r hr c hc
    have hsS : s ∈ S := hsub (List.mem_cons_self s rest)
    have hrestS : rest ⊆ S := fun x hx => hsub (List.mem_cons_of_mem s hx)
    rw [chunk_text_loop] at hr
    by_cases h1 : max_tokens < approx_token_count s.text
    · rw [if_pos h1] at hr
      cases hsw : split_by_words s.text s.byte_start max_tokens ov with
      | none => rw [hsw] at hr; exact absurd hr (by simp)
      | some ws =>
        rw [hsw] at hr
        refine ih [] 0 _ hrestS (by simp [tokenSum]) (by simp [tokenSum]) ?_ r hr c hc
        intro c' hc'
        rcases List.mem_append.mp hc' with h | h
        · rcases List.mem_append.mp h with h' | h'
          · exact hacc c' h'
          · by_cases hcur : cur.isEmpty
            · rw [if_pos hcur] at h'
              exact absurd h' (List.not_mem_nil c')
            · rw [if_neg hcur, List.mem_singleton] at h'
              subst h'
              exact Or.inl (by rw [approx_spans_to_chunk]; exact hbound)
        · exact Or.inr ⟨s, hsS, h1, ws, hsw, h⟩
    · rw [if_neg h1] at hr
      by_cases h2 : max_tokens < clen + approx_token_count s.text ∧ ¬cur.isEmpty
      · rw [if_pos (by simpa [decide_eq_true_eq] using h2)] at hr
        refine ih _ _ _ hrestS ?_ ?_ ?_ r hr c hc
        · rw [tokenSum_append, tokenSum_single]
        · rw [tokenSum_append, tokenSum_single]
          have hso := build_overlap_bound cur ov
          omega
        · intro c' hc'
          rcases List.mem_append.mp hc' with h | h
          · exact hacc c' h
          · rw [List.mem_singleton] at h
            subst h
            exact Or.inl (by rw [approx_spans_to_chunk]; exact hbound)
      · rw [if_neg (by simpa [decide_eq_true_eq] using h2)] at hr
        refine ih _ _ _ hrestS ?_ ?_ hacc r hr c hc
        · rw [tokenSum_append, tokenSum_single, hlen]
        · rw [tokenSum_append, tokenSum_single]
          rcases Decidable.not_and_iff_or_not.mp h2 with h3 | h3
          · omega
          · have : cur = [] := by
              cases cur with
              | nil => rfl
              | cons a b => simp [List.isEmpty] at h3
            subst this
            simp only [tokenSum, List.map_nil, List.sum_nil]
            omega

/-- C5 amended: every chunk `chunk_text` emits from the
sentence-accumulation path has an approximate token count of at most
`max_tokens + overlap_tokens` (not `max_tokens`: after a chunk closes
on overflow, the overlap seed — itself up to `overlap_tokens` tokens —
and the incoming sentence — up to `max_tokens` tokens — are both pushed
unconditionally).  Chunks outside this bound come only from the
force-split path (`split_by_words` windows, themselves of at most
`max_tokens` words). -/
theorem chunk_text_token_bound (text : List Char) (max_tokens overlap_tokens : Nat)
    (r : List ChunkSpan) (h : chunk_text text max_tokens overlap_tokens = some r) :
    ∀ c ∈ r, approx_token_count c.text ≤ max_tokens + overlap_tokens ∨
      ForceSplit (split_sentences text) max_tokens overlap_tokens c := by
  rw [chunk_text] at h
  by_cases ha : approx_token_count text ≤ max_tokens
  · rw [if_pos ha] at h
    obtain rfl : _ = r := Option.some.inj h
    intro c hc
    rw [List.mem_singleton] at hc
    subst hc
    exact Or.inl (by simpa using Nat.le_trans ha (Nat.le_add_right _ _))
  · rw [if_neg ha] at h
    exact chunk_text_loop_tokens max_tokens overlap_tokens (split_sentences text)
      (split_sentences text) [] 0 [] (fun x hx => hx) (by simp [tokenSum])
      (by simp [tokenSum]) (by simp) r h

/-- C5 witness: the amended bound applied at a concrete input. -/
theorem chunk_text_token_bound_witness :
    approx_token_count "Aa.".toList ≤ 1 + 0 ∨
      ForceSplit (split_sentences "Aa. Bb. Cc.".toList) 1 0 ⟨"Aa.".toList, 0, 3⟩ :=
  chunk_text_token_bound "Aa. Bb. Cc.".toList 1 0
    [⟨"Aa.".toList, 0, 3⟩, ⟨"Bb.".toList, 4, 7⟩, ⟨"Cc.".toList, 8, 11⟩]
    (by decide) ⟨"Aa.".toList, 0, 3⟩ (by decide)

/-- C5 counterexample: with `max_tokens = 3`, `overlap_tokens = 2` the
overlap-seeded middle chunk of `"a b. c d. e f g"` ("a b. c d.") holds
4 > 3 tokens, so chunks from the accumulation path are not bounded by
`max_tokens` alone. -/
theorem chunk_text_token_bound_cex :
    ¬(∀ c ∈ (chunk_text "a b. c d. e f g".toList 3 2).getD [],
        approx_token_count c.text ≤ 3) := by
  decide

/-! ### C4 support: byte-length and trim lemmas -/

theorem byteLen_reverse (l : List Char) : byteLen l.reverse = byteLen l := by
  induction l with
  | nil => rfl
  | cons c t ih => simp [byteLen, List.reverse_cons, byteLen_append, ih]; omega

theorem byteLen_sublist {l₁ l₂ : List Char} (h : List.Sublist l₁ l₂) :
    byteLen l₁ ≤ byteLen l₂ := by
  induction h with
  | slnil => exact Nat.le_refl _
  | cons c _ ih => simp only [byteLen]; omega
  | cons₂ c _ ih => simp only [byteLen]; omega

theorem byteLen_trimList_le (l : List Char) :
    byteLen (trimList l) ≤ byteLen (trimL l) := by
  rw [trimList, byteLen_reverse]
  calc byteLen ((trimL l).reverse.dropWhile (fun c => isWS c))
      ≤ byteLen (trimL l).reverse :=
        byteLen_sublist (List.dropWhile_suffix _).sublist
    _ = byteLen (trimL l) := byteLen_reverse _

theorem trimL_eq_nil_trimList {l : List Char} (h : trimL l = []) : trimList l = [] := by
  rw [trimList, h]
  rfl

theorem trimL_append_of_ne_nil {a : List Char} (b : List Char) (h : trimL a ≠ []) :
    trimL (a ++ b) = trimL a ++ b := by
  induction a with
  | nil => exact absurd rfl h
  | cons c t ih =>
    by_cases hc : isWS c
    · rw [trimL, List.cons_append, List.dropWhile_cons_of_pos (by simpa using hc)]
      rw [trimL, List.dropWhile_cons_of_pos (by simpa using hc)] at h ⊢
      exact ih h
    · rw [trimL, List.cons_append, List.dropWhile_cons_of_neg (by simpa using hc)]
      rw [trimL, List.dropWhile_cons_of_neg (by simpa using hc)]
      rfl

theorem trimL_append_of_nil {a : List Char} (b : List Char) (h : trimL a = []) :
    trimL (a ++ b) = trimL b := by
  induction a with
  | nil => rfl
  | cons c t ih =>
    by_cases hc : isWS c
    · rw [trimL, List.cons_append, List.dropWhile_cons_of_pos (by simpa using hc)]
      rw [trimL, List.dropWhile_cons_of_pos (by simpa using hc)] at h
      exact ih h
    · rw [trimL, List.dropWhile_cons_of_neg (by simpa using hc)] at h
      exact absurd h (by simp)

theorem trimL_single_not_ws {c : Char} (h : isWS c = false) : trimL [c] = [c] := by
  rw [trimL, List.dropWhile_cons_of_neg (by simp [h])]

/-! ### C4 support: word offsets stay inside the text -/

theorem splitWSGo_bounds :
    ∀ (l : List Char) (pos : Nat) (st : Option (Nat × List Char)),
      (∀ o w, st = some (o, w) → o + byteLen w ≤ pos) →
      ∀ x ∈ splitWSGo l pos st,
        x.1 + byteLen x.2 ≤ pos + byteLen l ∧
        (∀ o w, st = some (o, w) → o ≤ x.1) ∧ (st = none → pos ≤ x.1) := by
  intro l
  induction l with
  | nil =>
    intro pos st hst x hx
    match st with
    | none => simp [splitWSGo] at hx
    | some (o, w) =>
      simp only [splitWSGo, List.mem_singleton] at hx
      subst hx
      refine ⟨?_, ?_, ?_⟩
      · have := hst o w rfl
        simp only [byteLen_reverse, byteLen] at this ⊢
        omega
      · intro o' w' h; cases h; exact Nat.le_refl _
      · intro h; cases h
  | cons c t ih =>
    intro pos st hst x hx
    have hsz := c.utf8Size_pos
    match st with
    | none =>
      by_cases hc : isWS c
      · rw [splitWSGo, if_pos hc] at hx
        have := ih (pos + c.utf8Size) none (by intro o w h; cases h) x hx
        refine ⟨by simp only [byteLen]; omega, ?_, ?_⟩
        · intro o w h; cases h
        · intro _; have := this.2.2 rfl; omega
      · rw [splitWSGo, if_neg hc] at hx
        have := ih (pos + c.utf8Size) (some (pos, [c]))
          (by intro o w h; cases h; simp [byteLen]) x hx
        refine ⟨by simp only [byteLen]; omega, ?_, ?_⟩
        · intro o w h; cases h
        · intro _; exact this.2.1 pos [c] rfl
    | some (o, w) =>
      have how := hst o w rfl
      by_cases hc : isWS c
      · rw [splitWSGo, if_pos hc] at hx
        rcases List.mem_cons.mp hx with h | h
        · subst h
          refine ⟨?_, ?_, ?_⟩
          · simp only [byteLen_reverse, byteLen]; omega
          · intro o' w' h'; cases h'; exact Nat.le_refl _
          · intro h'; cases h'
        · have := ih (pos + c.utf8Size) none (by intro o' w' h'; cases h') x h
          refine ⟨by simp only [byteLen]; omega, ?_, ?_⟩
          · intro o' w' h'; cases h'
            have := this.2.2 rfl
            omega
          · intro h'; cases h'
      · rw [splitWSGo, if_neg hc] at hx
        have := ih (pos + c.utf8Size) (some (o, c :: w))
          (by intro o' w' h'; cases h'; simp only [byteLen]; omega) x hx
        refine ⟨by simp only [byteLen]; omega, ?_, ?_⟩
        · intro o' w' h'; cases h'
          exact this.2.1 o (c :: w) rfl
        · intro h'; cases h'

theorem splitWSGo_pairwise :
    ∀ (l : List Char) (pos : Nat) (st : Option (Nat × List Char)),
      (∀ o w, st = some (o, w) → o + byteLen w ≤ pos) →
      (splitWSGo l pos st).Pairwise (fun a b => a.1 ≤ b.1) := by
  intro l
  induction l with
  | nil =>
    intro pos st hst
    match st with
    | none => simp [splitWSGo]
    | some (o, w) => simp [splitWSGo]
  | cons c t ih =>
    intro pos st hst
    have hsz := c.utf8Size_pos
    match st with
    | none =>
      by_cases hc : isWS c
      · rw [splitWSGo, if_pos hc]
        exact ih _ none (by intro o w h; cases h)
      · rw [splitWSGo, if_neg hc]
        exact ih _ (some (pos, [c])) (by intro o w h; cases h; simp [byteLen])
    | some (o, w) =>
      have how := hst o w rfl
      by_cases hc : isWS c
      · rw [splitWSGo, if_pos hc]
        refine List.pairwise_cons.mpr ⟨?_, ih _ none (by intro o' w' h'; cases h')⟩
        intro y hy
        have := splitWSGo_bounds t (pos + c.utf8Size) none
          (by intro o' w' h'; cases h') y hy
        have h2 := this.2.2 rfl
        simp only
        omega
      · rw [splitWSGo, if_neg hc]
        exact ih _ (some (o, c :: w))
          (by intro o' w' h'; cases h'; simp only [byteLen]; omega)

theorem splitWSOff_bounds (text : List Char) :
    ∀ x ∈ splitWSOff text 0, x.1 + byteLen x.2 ≤ byteLen text := by
  intro x hx
  have := splitWSGo_bounds text 0 none (by intro o w h; cases h) x hx
  simpa using this.1

theorem splitWSOff_pairwise (text : List Char) :
    (splitWSOff text 0).Pairwise (fun a b => a.1 ≤ b.1) :=
  splitWSGo_pairwise text 0 none (by intro o w h; cases h)

/-! ### C4 support: force-split windows stay inside the sentence -/

theorem getD_mem {α : Type} (l : List α) (i : Nat) (d : α) (h : i < l.length) :
    l.getD i d ∈ l := by
  induction l generalizing i with
  | nil => simp at h
  | cons a t ih =>
    cases i with
    | zero => simp [List.getD_cons_zero]
    | succ n =>
      rw [List.getD_cons_succ]
      exact List.mem_cons_of_mem a (ih n (by simpa using h))

theorem pairwise_getD {α : Type} {R : α → α → Prop} {l : List α}
    (hp : l.Pairwise R) (d : α) :
    ∀ i j, i < j → j < l.length → R (l.getD i d) (l.getD j d) := by
  induction l with
  | nil => intro i j _ hj; simp at hj
  | cons a t ih =>
    intro i j hij hj
    rcases List.pairwise_cons.mp hp with ⟨ha, hp'⟩
    cases i with
    | zero =>
      cases j with
      | zero => omega
      | succ m =>
        rw [List.getD_cons_zero, List.getD_cons_succ]
        exact ha _ (getD_mem t m d (by simpa using hj))
    | succ n =>
      cases j with
      | zero => omega
      | succ m =>
        rw [List.getD_cons_succ, List.getD_cons_succ]
        exact ih hp' n m (by omega) (by simpa using hj)

theorem split_by_words_loop_spans (text : List Char) (base max_tokens ov T : Nat)
    (words : List (Nat × List Char)) (hT : base + byteLen text ≤ T)
    (hb : ∀ x ∈ words, x.1 + byteLen x.2 ≤ byteLen text)
    (hp : words.Pairwise (fun a b => a.1 ≤ b.1)) (hmax : 1 ≤ max_tokens) :
    ∀ (fuel start : Nat) (r : List ChunkSpan),
      split_by_words_loop text base max_tokens ov words fuel start = some r →
      ∀ c ∈ r, ChunkOK T c := by
  intro fuel
  induction fuel with
  | zero => intro start r h; exact absurd h (by rw [split_by_words_loop]; simp)
  | succ fuel ih =>
    intro start r h c hc
    rw [split_by_words_loop] at h
    by_cases h1 : start < words.length
    · rw [if_pos h1] at h
      by_cases h0 : min (start + max_tokens) words.length = 0
      · rw [if_pos h0] at h; exact absurd h (by simp)
      · rw [if_neg h0] at h
        have he1 : start + 1 ≤ min (start + max_tokens) words.length := by omega
        have hlast : min (start + max_tokens) words.length - 1 < words.length := by
          omega
        have hcs : (words.getD start (0, [])).1
            ≤ (words.getD (min (start + max_tokens) words.length - 1) (0, [])).1 := by
          by_cases heq : start = min (start + max_tokens) words.length - 1
          · rw [← heq]
          · exact pairwise_getD hp (0, []) start _ (by omega) hlast
        have hce : (words.getD (min (start + max_tokens) words.length - 1) (0, [])).1
            + byteLen (words.getD (min (start + max_tokens) words.length - 1) (0, [])).2
            ≤ byteLen text :=
          hb _ (getD_mem words _ (0, []) hlast)
        have hchunk : ChunkOK T
            ⟨byteSlice text (words.getD start (0, [])).1
              ((words.getD (min (start + max_tokens) words.length - 1) (0, [])).1 +
                byteLen (words.getD (min (start + max_tokens) words.length - 1) (0, [])).2),
             base + (words.getD start (0, [])).1,
             base + ((words.getD (min (start + max_tokens) words.length - 1) (0, [])).1 +
                byteLen (words.getD (min (start + max_tokens) words.length - 1) (0, [])).2)⟩ := by
          constructor
          · simp only; omega
          · simp only; omega
        by_cases h2 : words.length ≤ min (start + max_tokens) words.length
        · rw [if_pos h2] at h
          obtain rfl : _ = r := Option.some.inj h
          rw [List.mem_singleton] at hc
          subst hc
          exact hchunk
        · rw [if_neg h2] at h
          cases hrec : split_by_words_loop text base max_tokens ov words fuel
              (min (start + max_tokens) words.length - ov) with
          | none => rw [hrec] at h; exact absurd h (by simp)
          | some r' =>
            rw [hrec, Option.map_some'] at h
            obtain rfl : _ = r := Option.some.inj h
            rcases List.mem_cons.mp hc with h3 | h3
            · subst h3; exact hchunk
            · exact ih _ r' hrec c h3
    · rw [if_neg h1] at h
      obtain rfl : _ = r := Option.some.inj h
      exact absurd hc (List.not_mem_nil c)

/-- Every chunk `split_by_words` returns lies inside
`[base, base + byteLen text]` with ordered offsets. -/
theorem split_by_words_spans (text : List Char) (base max_tokens ov T : Nat)
    (hT : base + byteLen text ≤ T) :
    ∀ (r : List ChunkSpan), split_by_words text base max_tokens ov = some r →
      ∀ c ∈ r, ChunkOK T c := by
  intro r h c hc
  rw [split_by_words] at h
  by_cases hw : (splitWSOff text 0).isEmpty
  · rw [if_pos hw] at h
    obtain rfl : _ = r := Option.some.inj h
    exact absurd hc (List.not_mem_nil c)
  · rw [if_neg hw] at h
    by_cases hmax : 1 ≤ max_tokens
    · exact split_by_words_loop_spans text base max_tokens ov T (splitWSOff text 0) hT
        (splitWSOff_bounds text) (splitWSOff_pairwise text) hmax _ 0 r h c hc
    · exfalso
      have hm0 : max_tokens = 0 := by omega
      have hlen : 0 < (splitWSOff text 0).length := by
        cases hl : splitWSOff text 0 with
        | nil => exfalso; rw [hl] at hw; exact hw rfl
        | cons a t => simp
      rw [split_by_words_loop, if_pos hlen, hm0] at h
      rw [if_pos (by omega)] at h
      exact absurd h (by simp)

/-! ### C4 support: sentence spans stay inside the text -/

theorem trimL_single_ws {c : Char} (h : isWS c = true) : trimL [c] = [] := by
  rw [trimL, List.dropWhile_cons_of_pos (by simp [h])]
  rfl

theorem terminal_not_ws {ch : Char} (h : ch = '.' ∨ ch = '?' ∨ ch = '!') :
    isWS ch = false := by
  rcases h with h | h | h <;> subst h <;> decide

theorem split_sentences_go_ok :
    ∀ (rest : List Char) (pos : Nat) (current : List Char) (cstart : Option Nat),
      (cstart = none → trimL current = []) →
      (∀ st, cstart = some st →
        st ≤ pos ∧ byteLen (trimL current) = pos - st ∧ trimL current ≠ []) →
      ∀ s ∈ split_sentences_go rest pos current cstart,
        SentOK (pos + byteLen rest) s := by
  intro rest
  induction rest with
  | nil =>
    intro pos current cstart hn hs s hmem
    rw [split_sentences_go] at hmem
    by_cases ht : trimList current = []
    · rw [if_pos ht] at hmem
      exact absurd hmem (List.not_mem_nil s)
    · rw [if_neg ht] at hmem
      rw [List.mem_singleton] at hmem
      subst hmem
      match cstart with
      | none => exact absurd (trimL_eq_nil_trimList (hn rfl)) ht
      | some st =>
        obtain ⟨h1, h2, _⟩ := hs st rfl
        have h3 := byteLen_trimList_le current
        exact ⟨h1, by simp [byteLen], by simp only [Option.getD_some, byteLen]; omega⟩
  | cons ch rest ih =>
    intro pos current cstart hn hs s hmem
    have hsz := ch.utf8Size_pos
    rw [split_sentences_go] at hmem
    by_cases hcond : (ch = '.' || ch = '?' || ch = '!') && decide (1 < byteLen (current ++ [ch]))
    · rw [if_pos hcond] at hmem
      have hterm : isWS ch = false := by
        have hcond' := hcond
        simp only [Bool.and_eq_true, Bool.or_eq_true, decide_eq_true_eq] at hcond'
        exact terminal_not_ws (by tauto)
      rcases List.mem_append.mp hmem with hin | hin
      · by_cases ht : trimList (current ++ [ch]) = []
        · rw [if_pos ht] at hin
          exact absurd hin (List.not_mem_nil s)
        · rw [if_neg ht, List.mem_singleton] at hin
          subst hin
          match cstart with
          | none =>
            have hcur : trimL current = [] := hn rfl
            have htl : trimL (current ++ [ch]) = [ch] := by
              rw [trimL_append_of_nil [ch] hcur, trimL_single_not_ws hterm]
            have hb := byteLen_trimList_le (current ++ [ch])
            rw [htl] at hb
            simp only [Option.isNone_none, hterm, Bool.not_false, Bool.and_self,
              if_pos, Option.getD_some]
            unfold SentOK
            dsimp only
            simp only [byteLen] at hb ⊢
            omega
          | some st =>
            obtain ⟨h1, h2, h3⟩ := hs st rfl
            have htl : trimL (current ++ [ch]) = trimL current ++ [ch] :=
              trimL_append_of_ne_nil [ch] h3
            have hb := byteLen_trimList_le (current ++ [ch])
            rw [htl, byteLen_append] at hb
            simp only [Option.isNone_some, Bool.false_and, if_neg, Option.getD_some,
              Bool.false_eq_true, not_false_eq_true]
            unfold SentOK
            dsimp only
            simp only [byteLen] at hb ⊢
            omega
      · have := ih (pos + ch.utf8Size) [] none (fun _ => rfl) (by intro st h; cases h)
          s hin
        simpa [byteLen, Nat.add_assoc] using this
    · rw [if_neg hcond] at hmem
      by_cases hws : isWS ch
      · have hc' : (if cstart.isNone && !isWS ch then some pos else cstart) = cstart := by
          simp [hws]
        rw [hc'] at hmem
        have hinv_n : cstart = none → trimL (current ++ [ch]) = [] := by
          intro h
          rw [trimL_append_of_nil [ch] (hn h), trimL_single_ws hws]
        have hinv_s : ∀ st, cstart = some st →
            st ≤ pos + ch.utf8Size ∧
            byteLen (trimL (current ++ [ch])) = pos + ch.utf8Size - st ∧
            trimL (current ++ [ch]) ≠ [] := by
          intro st h
          obtain ⟨h1, h2, h3⟩ := hs st h
          rw [trimL_append_of_ne_nil [ch] h3, byteLen_append]
          refine ⟨by omega, by simp only [byteLen]; omega, by simp⟩
        have := ih (pos + ch.utf8Size) (current ++ [ch]) cstart hinv_n hinv_s s hmem
        simpa [byteLen, Nat.add_assoc] using this
      · have hinv_n : ∀ cs', cs' = (if cstart.isNone && !isWS ch then some pos else cstart) →
            (cs' = none → trimL (current ++ [ch]) = []) ∧
            (∀ st, cs' = some st →
              st ≤ pos + ch.utf8Size ∧
              byteLen (trimL (current ++ [ch])) = pos + ch.utf8Size - st ∧
              trimL (current ++ [ch]) ≠ []) := by
          intro cs' hcs'
          match cstart, hcs' with
          | none, hcs' =>
            simp only [Option.isNone_none, Bool.true_and, hws, Bool.not_false,
              if_pos] at hcs'
            subst hcs'
            constructor
            · intro h; cases h
            · intro st h
              obtain rfl : pos = st := Option.some.inj h
              have hcur : trimL current = [] := hn rfl
              rw [trimL_append_of_nil [ch] hcur,
                trimL_single_not_ws (by simpa using hws)]
              refine ⟨by omega, by simp [byteLen], by simp⟩
          | some st₀, hcs' =>
            simp only [Option.isNone_some, Bool.false_and, if_neg,
              Bool.false_eq_true, not_false_eq_true] at hcs'
            subst hcs'
            constructor
            · intro h; cases h
            · intro st h
              injection h with h4
              subst h4
              obtain ⟨h1, h2, h3⟩ := hs _ rfl
              rw [trimL_append_of_ne_nil [ch] h3, byteLen_append]
              refine ⟨by omega, by simp only [byteLen]; omega, by simp⟩
        obtain ⟨hin, his⟩ := hinv_n _ rfl
        have := ih (pos + ch.utf8Size) (current ++ [ch]) _ hin his s hmem
        simpa [byteLen, Nat.add_assoc] using this

theorem split_sentences_go_end_ge :
    ∀ (rest : List Char) (pos : Nat) (current : List Char) (cstart : Option Nat),
      ∀ s ∈ split_sentences_go rest pos current cstart, pos ≤ s.byte_end := by
  intro rest
  induction rest with
  | nil =>
    intro pos current cstart s hmem
    rw [split_sentences_go] at hmem
    by_cases ht : trimList current = []
    · rw [if_pos ht] at hmem
      exact absurd hmem (List.not_mem_nil s)
    · rw [if_neg ht, List.mem_singleton] at hmem
      subst hmem
      exact Nat.le_refl _
  | cons ch rest ih =>
    intro pos current cstart s hmem
    have hsz := ch.utf8Size_pos
    rw [split_sentences_go] at hmem
    by_cases hcond : (ch = '.' || ch = '?' || ch = '!')
        && decide (1 < byteLen (current ++ [ch]))
    · rw [if_pos hcond] at hmem
      rcases List.mem_append.mp hmem with hin | hin
      · by_cases ht : trimList (current ++ [ch]) = []
        · rw [if_pos ht] at hin
          exact absurd hin (List.not_mem_nil s)
        · rw [if_neg ht, List.mem_singleton] at hin
          subst hin
          dsimp only
          omega
      · have := ih (pos + ch.utf8Size) [] none s hin
        omega
    · rw [if_neg hcond] at hmem
      have := ih (pos + ch.utf8Size) (current ++ [ch]) _ s hmem
      omega

theorem split_sentences_go_pairwise :
    ∀ (rest : List Char) (pos : Nat) (current : List Char) (cstart : Option Nat),
      (split_sentences_go rest pos current cstart).Pairwise
        (fun a b => a.byte_end ≤ b.byte_end) := by
  intro rest
  induction rest with
  | nil =>
    intro pos current cstart
    rw [split_sentences_go]
    by_cases ht : trimList current = []
    · rw [if_pos ht]; exact List.Pairwise.nil
    · rw [if_neg ht]; simp
  | cons ch rest ih =>
    intro pos current cstart
    have hsz := ch.utf8Size_pos
    rw [split_sentences_go]
    by_cases hcond : (ch = '.' || ch = '?' || ch = '!')
        && decide (1 < byteLen (current ++ [ch]))
    · rw [if_pos hcond]
      by_cases ht : trimList (current ++ [ch]) = []
      · simp only [if_pos ht, List.nil_append]
        exact ih _ _ _
      · simp only [if_neg ht, List.singleton_append]
        refine List.pairwise_cons.mpr ⟨?_, ih _ _ _⟩
        intro y hy
        have := split_sentences_go_end_ge rest (pos + ch.utf8Size) [] none y hy
        dsimp only
        omega
    · rw [if_neg hcond]
      exact ih _ _ _

/-- Every sentence produced by `split_sentences` has ordered in-bounds
offsets and text that fits between them. -/
theorem split_sentences_ok (text : List Char) :
    ∀ s ∈ split_sentences text, SentOK (byteLen text) s := by
  intro s hs
  have := split_sentences_go_ok text 0 [] none (fun _ => rfl)
    (by intro st h; cases h) s hs
  simpa using this

/-- Sentence spans are emitted with monotone end offsets. -/
theorem split_sentences_pairwise (text : List Char) :
    (split_sentences text).Pairwise (fun a b => a.byte_end ≤ b.byte_end) :=
  split_sentences_go_pairwise text 0 [] none

/-! ### C4: all chunk offsets lie within the input text -/

theorem last_end_ge :
    ∀ (xs : List SentenceSpan) (x : SentenceSpan),
      (x :: xs).Pairwise (fun a b => a.byte_end ≤ b.byte_end) →
      ∃ last, (x :: xs).getLast? = some last ∧ last ∈ x :: xs ∧
        x.byte_end ≤ last.byte_end := by
  intro xs
  induction xs with
  | nil =>
    intro x _
    exact ⟨x, rfl, List.mem_singleton_self x, Nat.le_refl _⟩
  | cons y ys ih =>
    intro x hp
    rcases List.pairwise_cons.mp hp with ⟨hx, hp'⟩
    obtain ⟨last, h1, h2, _⟩ := ih y hp'
    exact ⟨last, by rw [List.getLast?_cons_cons]; exact h1,
      List.mem_cons_of_mem x h2, hx last h2⟩

theorem spans_to_chunk_ok (T : Nat) (cur : List SentenceSpan)
    (hall : ∀ s ∈ cur, SentOK T s)
    (hpair : cur.Pairwise (fun a b => a.byte_end ≤ b.byte_end)) :
    ChunkOK T (spans_to_chunk cur) := by
  cases cur with
  | nil => exact ⟨Nat.le_refl 0, Nat.zero_le T⟩
  | cons x xs =>
    obtain ⟨last, h1, h2, h3⟩ := last_end_ge xs x hpair
    obtain ⟨hx1, _, _⟩ := hall x (List.mem_cons_self x xs)
    obtain ⟨_, hl2, _⟩ := hall last h2
    constructor
    · show ((((x :: xs).head?).map (·.byte_start)).getD 0)
        ≤ ((((x :: xs).getLast?).map (·.byte_end)).getD 0)
      rw [List.head?_cons, h1]
      simp only [Option.map_some', Option.getD_some]
      omega
    · show ((((x :: xs).getLast?).map (·.byte_end)).getD 0) ≤ T
      rw [h1]
      simpa using hl2

theorem build_overlap_rev_ex (ov : Nat) :
    ∀ (l : List SentenceSpan) (acc : Nat),
      ∃ t, l = build_overlap_rev ov l acc ++ t := by
  intro l
  induction l with
  | nil => intro acc; exact ⟨[], rfl⟩
  | cons s rest ih =>
    intro acc
    rw [build_overlap_rev]
    by_cases hc : ov < acc + approx_token_count s.text
    · rw [if_pos hc]; exact ⟨s :: rest, rfl⟩
    · rw [if_neg hc]
      obtain ⟨t, ht⟩ := ih (acc + approx_token_count s.text)
      exact ⟨t, by rw [List.cons_append, ← ht]⟩

theorem build_overlap_suffix_ex (chunk : List SentenceSpan) (ov : Nat) :
    ∃ pre, chunk = pre ++ build_overlap chunk ov := by
  obtain ⟨t, ht⟩ := build_overlap_rev_ex ov chunk.reverse 0
  refine ⟨t.reverse, ?_⟩
  rw [build_overlap]
  conv_lhs => rw [← List.reverse_reverse chunk, ht]
  rw [List.reverse_append]

theorem build_overlap_sublist (chunk : List SentenceSpan) (ov : Nat) :
    List.Sublist (build_overlap chunk ov) chunk := by
  obtain ⟨pre, hpre⟩ := build_overlap_suffix_ex chunk ov
  conv_rhs => rw [hpre]
  exact List.sublist_append_right pre _

theorem chunk_text_loop_spans (max_tokens ov T : Nat) (S : List SentenceSpan)
    (hS : ∀ s ∈ S, SentOK T s)
    (hSp : S.Pairwise (fun a b => a.byte_end ≤ b.byte_end)) :
    ∀ (rest cur : List SentenceSpan) (clen : Nat) (acc : List ChunkSpan),
      List.Sublist (cur ++ rest) S →
      (∀ c ∈ acc, ChunkOK T c) →
      ∀ r, chunk_text_loop max_tokens ov rest cur clen acc = some r →
      ∀ c ∈ r, ChunkOK T c := by
  intro rest
  induction rest with
  | nil =>
    intro cur clen acc hsub hacc r hr c hc
    rw [chunk_text_loop] at hr
    obtain rfl : _ = r := Option.some.inj hr
    rcases List.mem_append.mp hc with h | h
    · exact hacc c h
    · by_cases hcur : cur.isEmpty
      · rw [if_pos hcur] at h
        exact absurd h (List.not_mem_nil c)
      · rw [if_neg hcur, List.mem_singleton] at h
        subst h
        have hcur_sub : List.Sublist cur S := by
          simpa using hsub
        exact spans_to_chunk_ok T cur (fun s hs => hS s (hcur_sub.mem hs))
          (hSp.sublist hcur_sub)
  | cons s rest ih =>
    intro cur clen acc hsub hacc r hr c hc
    have hcur_sub : List.Sublist cur S :=
      ((List.sublist_append_left cur (s :: rest)).trans hsub)
    have hs_mem : s ∈ S :=
      hsub.mem (List.mem_append_right cur (List.mem_cons_self s rest))
    have hrest_sub : List.Sublist rest S :=
      (List.sublist_cons_self s rest).trans
        ((List.sublist_append_right cur (s :: rest)).trans hsub)
    have hchunk_cur : ChunkOK T (spans_to_chunk cur) :=
      spans_to_chunk_ok T cur (fun x hx => hS x (hcur_sub.mem hx))
        (hSp.sublist hcur_sub)
    rw [chunk_text_loop] at hr
    by_cases h1 : max_tokens < approx_token_count s.text
    · rw [if_pos h1] at hr
      cases hsw : split_by_words s.text s.byte_start max_tokens ov with
      | none => rw [hsw] at hr; exact absurd hr (by simp)
      | some ws =>
        rw [hsw] at hr
        refine ih [] 0 _ (by simpa using hrest_sub) ?_ r hr c hc
        intro c' hc'
        rcases List.mem_append.mp hc' with h | h
        · rcases List.mem_append.mp h with h' | h'
          · exact hacc c' h'
          · by_cases hcur : cur.isEmpty
            · rw [if_pos hcur] at h'
              exact absurd h' (List.not_mem_nil c')
            · rw [if_neg hcur, List.mem_singleton] at h'
              subst h'
              exact hchunk_cur
        · obtain ⟨hs1, hs2, hs3⟩ := hS s hs_mem
          exact split_by_words_spans s.text s.byte_start max_tokens ov T
            (by omega) ws hsw c' h
    · rw [if_neg h1] at hr
      by_cases h2 : max_tokens < clen + approx_token_count s.text ∧ ¬cur.isEmpty
      · rw [if_pos (by simpa [decide_eq_true_eq] using h2)] at hr
        refine ih _ _ _ ?_ ?_ r hr c hc
        · rw [List.append_assoc, List.singleton_append]
          exact ((build_overlap_sublist cur ov).append (List.Sublist.refl _)).trans hsub
        · intro c' hc'
          rcases List.mem_append.mp hc' with h | h
          · exact hacc c' h
          · rw [List.mem_singleton] at h
            subst h
            exact hchunk_cur
      · rw [if_neg (by simpa [decide_eq_true_eq] using h2)] at hr
        refine ih _ _ _ ?_ hacc r hr c hc
        rw [List.append_assoc, List.singleton_append]
        exact hsub

/-- C4: every chunk span `chunk_text` produces — sentence chunks and
force-split word windows alike — satisfies
`char_start ≤ char_end ≤ byteLen text`. -/
theorem chunk_text_spans_in_bounds (text : List Char)
    (max_tokens overlap_tokens : Nat) (r : List ChunkSpan)
    (h : chunk_text text max_tokens overlap_tokens = some r) :
    ∀ c ∈ r, ChunkOK (byteLen text) c := by
  rw [chunk_text] at h
  by_cases ha : approx_token_count text ≤ max_tokens
  · rw [if_pos ha] at h
    obtain rfl : _ = r := Option.some.inj h
    intro c hc
    rw [List.mem_singleton] at hc
    subst hc
    exact ⟨Nat.zero_le _, Nat.le_refl _⟩
  · rw [if_neg ha] at h
    exact chunk_text_loop_spans max_tokens overlap_tokens (byteLen text)
      (split_sentences text) (split_sentences_ok text)
      (split_sentences_pairwise text) (split_sentences text) [] 0 []
      (by rw [List.nil_append]) (by simp) r h

/-- C4 witness: the bound applied at a concrete three-sentence input. -/
theorem chunk_text_spans_in_bounds_witness :
    ChunkOK (byteLen "First sentence. Second sentence. Third sentence.".toList)
      ⟨"Second sentence.".toList, 16, 32⟩ :=
  chunk_text_spans_in_bounds "First sentence. Second sentence. Third sentence.".toList
    3 1
    [⟨"First sentence.".toList, 0, 15⟩, ⟨"Second sentence.".toList, 16, 32⟩,
      ⟨"Third sentence.".toList, 33, 48⟩]
    (by decide) ⟨"Second sentence.".toList, 16, 32⟩ (by decide)

/-! ### C8: `build_edges` output is sorted and duplicate-free -/

instance : IsTotal Edge edgeLe :=
  ⟨fun a b => le_total (edgeKey a) (edgeKey b)⟩

instance : IsTrans Edge edgeLe :=
  ⟨fun _ _ _ h1 h2 => le_trans h1 h2⟩

theorem edgeKey_eq_iff (a b : Edge) :
    edgeKey a = edgeKey b ↔
      a.from_id = b.from_id ∧ a.to_id = b.to_id ∧ a.rel_type = b.rel_type := by
  rw [edgeKey, edgeKey, toLex_inj, Prod.mk.injEq, toLex_inj, Prod.mk.injEq]

theorem dedupEdges_sublist : ∀ (l : List Edge), List.Sublist (dedupEdges l) l := by
  intro l
  induction l using dedupEdges.induct with
  | case1 => rw [dedupEdges]
  | case2 a => rw [dedupEdges]
  | case3 a b t hcond ih =>
    rw [dedupEdges, if_pos hcond]
    exact ih.trans ((List.sublist_cons_self b t).cons₂ a)
  | case4 a b t hcond ih =>
    rw [dedupEdges, if_neg hcond]
    exact ih.cons₂ a

theorem dedupEdges_pairwise :
    ∀ (l : List Edge), l.Pairwise edgeLe →
      (dedupEdges l).Pairwise (fun a b => edgeKey a < edgeKey b) := by
  intro l
  induction l using dedupEdges.induct with
  | case1 => intro _; rw [dedupEdges]; exact List.Pairwise.nil
  | case2 a => intro _; rw [dedupEdges]; simp
  | case3 a b t hcond ih =>
    intro hp
    rw [dedupEdges, if_pos hcond]
    exact ih (hp.sublist ((List.sublist_cons_self b t).cons₂ a))
  | case4 a b t hcond ih =>
    intro hp
    rw [dedupEdges, if_neg hcond]
    rcases List.pairwise_cons.mp hp with ⟨ha, hp'⟩
    refine List.pairwise_cons.mpr ⟨?_, ih hp'⟩
    intro y hy
    have hy' : y ∈ b :: t := (dedupEdges_sublist (b :: t)).mem hy
    have hab : edgeKey a ≤ edgeKey b := ha b (List.mem_cons_self b t)
    have hne : edgeKey a ≠ edgeKey b := by
      intro he
      exact hcond (by
        obtain ⟨h1, h2, h3⟩ := (edgeKey_eq_iff a b).mp he
        exact ⟨h1.symm, h2.symm, h3.symm⟩)
    have hlt : edgeKey a < edgeKey b := lt_of_le_of_ne hab hne
    rcases List.mem_cons.mp hy' with h | h
    · subst h; exact hlt
    · exact lt_of_lt_of_le hlt (List.pairwise_cons.mp hp' |>.1 y h)

/-- C8: for every input, `build_edges` returns an edge list that is
strictly sorted by `(from_id, to_id, rel_type)` — in particular no two
entries share that triple, even when the same edge is generated by more
than one extraction pass. -/
theorem build_edges_sorted_nodup (nodes : List Node)
    (lookup : List ((String × String) × List Int))
    (code_rows : List VirginiaCodeRow) (constitution_rows : List ConstitutionRow)
    (document_rows : List DocumentRow) (texts : List (Int × List Char)) :
    (build_edges nodes lookup code_rows constitution_rows document_rows
      texts).Pairwise (fun a b => edgeKey a < edgeKey b) := by
  rw [build_edges]
  exact dedupEdges_pairwise _ (List.sorted_insertionSort edgeLe _)

/-! ### C9: citation extraction literal cases -/

/-- C9: the three literal citation-extraction cases: singular `§`
references, plural `§§` lists, and hyperlink-embedded `/vacode/`
identifiers; outputs are sorted and duplicate-free. -/
theorem extract_section_refs_literal_cases :
    extract_section_refs "See § 1-200 and § 2.2-3700 for details.".toList
        = ["1-200", "2.2-3700"] ∧
      extract_section_refs "§§ 1-200, 1-201 and 1-202".toList
        = ["1-200", "1-201", "1-202"] ∧
      "19.2-392" ∈ extract_section_refs
        "<a href=\"https://law.lis.virginia.gov/vacode/19.2-392\">link</a>".toList := by
  refine ⟨?_, ?_, ?_⟩ <;> decide

/-! ### C10: document chunk nodes carry offset metadata -/

theorem DocMetaInv_mono {st st' : BuildSt}
    (hn : ∃ new, st'.nodes = st.nodes ++ new ∧ ∀ n ∈ new, n.source ≠ "documents")
    (hm : ∃ em, st'.chunk_meta = st.chunk_meta ++ em) :
    DocMetaInv st → DocMetaInv st' := by
  intro hP n hn' hsrc
  obtain ⟨new, hnodes, hnew⟩ := hn
  obtain ⟨em, hmeta⟩ := hm
  rw [hnodes] at hn'
  rcases List.mem_append.mp hn' with h | h
  · obtain ⟨m, hm1, hm2⟩ := hP n h hsrc
    exact ⟨m, by rw [hmeta]; exact List.mem_append_left em hm1, hm2⟩
  · exact absurd hsrc (hnew n h)

theorem addSynthNodes_spec (source node_type : String) :
    ∀ (kn : List (String × String)) (st : BuildSt),
      ∃ new em, (addSynthNodes source node_type kn st).nodes = st.nodes ++ new ∧
        (addSynthNodes source node_type kn st).chunk_meta = st.chunk_meta ++ em ∧
        ∀ n ∈ new, n.source = source := by
  intro kn
  induction kn with
  | nil => intro st; exact ⟨[], [], by simp [addSynthNodes], by simp [addSynthNodes], by simp⟩
  | cons kv rest ih =>
    intro st
    obtain ⟨new, em, h1, h2, h3⟩ := ih (addSynthNode source node_type st kv)
    refine ⟨⟨st.next_id, source, kv.1, 0, node_type, true⟩ :: new, em, ?_, ?_, ?_⟩
    · rw [addSynthNodes, List.foldl_cons, ← addSynthNodes]
      rw [h1]
      simp [addSynthNode]
    · rw [addSynthNodes, List.foldl_cons, ← addSynthNodes]
      rw [h2]
      simp [addSynthNode]
    · intro n hn
      rcases List.mem_cons.mp hn with h | h
      · subst h; rfl
      · exact h3 n h

theorem chunkFold_spec (source node_type key : String) (wm : Bool) :
    ∀ (l : List (Nat × ChunkSpan)) (st : BuildSt),
      ∃ new em, (l.foldl (addChunkNode source node_type key wm) st).nodes
          = st.nodes ++ new ∧
        (l.foldl (addChunkNode source node_type key wm) st).chunk_meta
          = st.chunk_meta ++ em ∧
        ∀ n ∈ new, n.source = source := by
  intro l
  induction l with
  | nil => intro st; exact ⟨[], [], by simp, by simp, by simp⟩
  | cons p rest ih =>
    intro st
    obtain ⟨new, em, h1, h2, h3⟩ := ih (addChunkNode source node_type key wm st p)
    refine ⟨⟨st.next_id, source, key, (p.1 : Int), node_type, false⟩ :: new,
      (if wm then [⟨st.next_id, p.2.char_start, p.2.char_end⟩] else []) ++ em, ?_, ?_, ?_⟩
    · rw [List.foldl_cons, h1]
      simp [addChunkNode]
    · rw [List.foldl_cons, h2]
      simp [addChunkNode]
    · intro n hn
      rcases List.mem_cons.mp hn with h | h
      · subst h; rfl
      · exact h3 n h

theorem addChunkNodes_inv (source node_type key : String) (text : List Char)
    (ma : Bool) (st st' : BuildSt) (hsrc : source ≠ "documents")
    (h : addChunkNodes source node_type key text ma st = some st') :
    DocMetaInv st → DocMetaInv st' := by
  intro hP
  rw [addChunkNodes] at h
  cases hct : chunk_text text 500 50 with
  | none => rw [hct] at h; exact absurd h (by simp)
  | some chunks =>
    rw [hct, Option.map_some'] at h
    obtain rfl : _ = st' := Option.some.inj h
    obtain ⟨new, em, h1, h2, h3⟩ := chunkFold_spec source node_type key
      (ma || decide (1 < chunks.length)) chunks.enum st
    refine DocMetaInv_mono ⟨new, h1, ?_⟩ ⟨em, h2⟩ hP
    intro n hn
    rw [h3 n hn]
    exact hsrc

theorem foldRowsM_inv {α : Type} (f : α → BuildSt → Option BuildSt)
    (hf : ∀ r st st', f r st = some st' → DocMetaInv st → DocMetaInv st') :
    ∀ (rows : List α) (st st' : BuildSt), foldRowsM f rows st = some st' →
      DocMetaInv st → DocMetaInv st' := by
  intro rows
  induction rows with
  | nil =>
    intro st st' h
    rw [foldRowsM] at h
    obtain rfl : _ = st' := Option.some.inj h
    exact id
  | cons r rest ih =>
    intro st st' h hP
    rw [foldRowsM] at h
    cases hr : f r st with
    | none => rw [hr] at h; exact absurd h (by simp)
    | some st₁ =>
      rw [hr] at h
      exact ih st₁ st' h (hf r st st₁ hr hP)

theorem docStep_inv :
    ∀ (r : DocCleanRow) (st st' : BuildSt), docStep r st = some st' →
      DocMetaInv st → DocMetaInv st' := by
  intro r st st' h hP
  rw [docStep] at h
  by_cases hf : r.filename = ""
  · rw [if_pos hf] at h
    obtain rfl : _ = st' := Option.some.inj h
    exact hP
  · rw [if_neg hf, addChunkNodes] at h
    cases hct : chunk_text r.clean_text 500 50 with
    | none => rw [hct] at h; exact absurd h (by simp)
    | some chunks =>
      rw [hct, Option.map_some'] at h
      obtain rfl : _ = st' := Option.some.inj h
      have hwm : (true || decide (1 < chunks.length)) = true := Bool.true_or _
      rw [hwm]
      clear h hct
      induction chunks.enum generalizing st with
      | nil => exact hP
      | cons p rest ih =>
        rw [List.foldl_cons]
        refine ih _ ?_
        intro n hn hsrc
        rcases List.mem_append.mp hn with hin | hin
        · obtain ⟨m, hm1, hm2⟩ := hP n hin hsrc
          exact ⟨m, List.mem_append_left _ hm1, hm2⟩
        · rw [List.mem_singleton] at hin
          subst hin
          exact ⟨⟨st.next_id, p.2.char_start, p.2.char_end⟩,
            List.mem_append_right _ (by simp [addChunkNode]), rfl⟩

theorem addSynthNodes_inv (source node_type : String) (kn : List (String × String))
    (st : BuildSt) (hsrc : source ≠ "documents") :
    DocMetaInv st → DocMetaInv (addSynthNodes source node_type kn st) := by
  obtain ⟨new, em, h1, h2, h3⟩ := addSynthNodes_spec source node_type kn st
  exact DocMetaInv_mono ⟨new, h1, fun n hn => by rw [h3 n hn]; exact hsrc⟩ ⟨em, h2⟩

theorem vcSectionStep_inv :
    ∀ (r : VCodeCleanRow) (st st' : BuildSt), vcSectionStep r st = some st' →
      DocMetaInv st → DocMetaInv st' := by
  intro r st st' h
  rw [vcSectionStep] at h
  by_cases hs : r.«section» = ""
  · rw [if_pos hs] at h
    obtain rfl : _ = st' := Option.some.inj h
    exact id
  · rw [if_neg hs] at h
    exact addChunkNodes_inv _ _ _ _ _ _ _ (by decide) h

theorem constSectionStep_inv :
    ∀ (r : ConstCleanRow) (st st' : BuildSt), constSectionStep r st = some st' →
      DocMetaInv st → DocMetaInv st' := by
  intro r st st' h
  rw [constSectionStep] at h
  exact addChunkNodes_inv _ _ _ _ _ _ _ (by decide) h

theorem authStep_inv :
    ∀ (r : AuthCleanRow) (st st' : BuildSt), authStep r st = some st' →
      DocMetaInv st → DocMetaInv st' := by
  intro r st st' h
  rw [authStep] at h
  by_cases hs : r.short_name = ""
  · rw [if_pos hs] at h
    obtain rfl : _ = st' := Option.some.inj h
    exact id
  · rw [if_neg hs] at h
    exact addChunkNodes_inv _ _ _ _ _ _ _ (by decide) h

theorem popStep_inv :
    ∀ (r : PopNameCleanRow) (st st' : BuildSt), popStep r st = some st' →
      DocMetaInv st → DocMetaInv st' := by
  intro r st st' h
  rw [popStep] at h
  by_cases hs : r.name = ""
  · rw [if_pos hs] at h
    obtain rfl : _ = st' := Option.some.inj h
    exact id
  · rw [if_neg hs] at h
    exact addChunkNodes_inv _ _ _ _ _ _ _ (by decide) h

theorem courtFold_inv :
    ∀ (rows : List CourtCleanRow) (st : BuildSt),
      DocMetaInv st → DocMetaInv (rows.foldl courtStep st) := by
  intro rows
  induction rows with
  | nil => intro st hP; exact hP
  | cons r rest ih =>
    intro st hP
    rw [List.foldl_cons]
    refine ih _ ?_
    refine DocMetaInv_mono
      ⟨[⟨st.next_id, "courts", toString r.id, 0, "court", false⟩], ?_, ?_⟩
      ⟨[], ?_⟩ hP
    · rfl
    · intro n hn
      rw [List.mem_singleton] at hn
      subst hn
      exact (by decide : ("courts" : String) ≠ "documents")
    · simp [courtStep]

/-- C10 amended (documents part): every node built from the documents
table has a `chunk_meta` entry bearing its node id — document chunks
record offset metadata unconditionally. -/
theorem build_nodes_documents_meta (c : CleanedData) (r : NodeBuildResult)
    (h : build_nodes c = some r) :
    ∀ n ∈ r.nodes, n.source = "documents" →
      ∃ m ∈ r.chunk_meta, m.node_id = n.id := by
  rw [build_nodes] at h
  simp only [Option.bind_eq_some, Option.map_eq_some'] at h
  obtain ⟨st3, h3, st5, h5, st6, h6, st8, h8, st9, h9, hr⟩ := h
  subst hr
  have p0 : DocMetaInv ⟨[], [], [], [], 1⟩ := by
    intro n hn
    exact absurd hn (List.not_mem_nil n)
  have p1 := addSynthNodes_inv "virginia_code" "title" (titlesSeen c.virginia_code)
    _ (by decide) p0
  have p2 := addSynthNodes_inv "virginia_code" "chapter" (chaptersSeen c.virginia_code)
    _ (by decide) p1
  have p3 := foldRowsM_inv vcSectionStep vcSectionStep_inv c.virginia_code _ _ h3 p2
  have p4 := addSynthNodes_inv "constitution" "article"
    ((articlesSeen c.constitution).map (fun p => ("article:" ++ toString p.1, p.2)))
    _ (by decide) p3
  have p5 := foldRowsM_inv constSectionStep constSectionStep_inv c.constitution _ _ h5 p4
  have p6 := foldRowsM_inv authStep authStep_inv c.authorities _ _ h6 p5
  have p7 := courtFold_inv c.courts _ p6
  have p8 := foldRowsM_inv popStep popStep_inv c.popular_names _ _ h8 p7
  have p9 := foldRowsM_inv docStep docStep_inv c.documents _ _ h9 p8
  exact p9

/-- C10 witness: the documents guarantee applied at a concrete input. -/
theorem build_nodes_documents_meta_witness :
    ∃ m ∈ [(⟨1, 0, 8⟩ : ChunkMeta)],
      m.node_id = (⟨1, "documents", "f.txt", 0, "manual_chunk", false⟩ : Node).id :=
  build_nodes_documents_meta ⟨[], [], [], [], [], [⟨"f.txt", "doc body".toList⟩]⟩
    ⟨[⟨1, "documents", "f.txt", 0, "manual_chunk", false⟩],
      [(("documents", "f.txt"), [1])], [(1, "doc body".toList)], [⟨1, 0, 8⟩]⟩
    (by decide) ⟨1, "documents", "f.txt", 0, "manual_chunk", false⟩ (by decide) rfl

/-- C10 counterexample: a Virginia Code record whose text fits in a
single chunk yields a non-synthetic chunk node but no `chunk_meta`
entry at all (`chunk_meta` is recorded only when `chunks.len() > 1` for
the non-document tables), so the claim fails for single-chunk records
outside the documents table. -/
theorem build_nodes_documents_meta_cex :
    build_nodes ⟨[⟨"1-1", "", "", "", "", "short text".toList⟩], [], [], [], [], []⟩
        ≠ none ∧
      (⟨1, "virginia_code", "1-1", 0, "section", false⟩ : Node) ∈
        nodesOf ⟨[⟨"1-1", "", "", "", "", "short text".toList⟩], [], [], [], [], []⟩ ∧
      metaOf ⟨[⟨"1-1", "", "", "", "", "short text".toList⟩], [], [], [], [], []⟩ = [] := by
  refine ⟨?_, ?_, ?_⟩ <;> decide

/-! ### C1: uniqueness of `(source, source_id, chunk_idx)` -/

theorem addSynthNodes_keys (source node_type : String) :
    ∀ (kn : List (String × String)) (st : BuildSt),
      ((addSynthNodes source node_type kn st).nodes).map nodeKey
        = st.nodes.map nodeKey ++ kn.map (fun kv => (source, kv.1, (0 : Int))) := by
  intro kn
  induction kn with
  | nil => intro st; simp [addSynthNodes]
  | cons kv rest ih =>
    intro st
    rw [addSynthNodes, List.foldl_cons, ← addSynthNodes, ih]
    simp [addSynthNode, nodeKey]

theorem chunkFold_keys (source node_type key : String) (wm : Bool) :
    ∀ (l : List (Nat × ChunkSpan)) (st : BuildSt),
      ((l.foldl (addChunkNode source node_type key wm) st).nodes).map nodeKey
        = st.nodes.map nodeKey ++ l.map (fun p => (source, key, (p.1 : Int))) := by
  intro l
  induction l with
  | nil => intro st; simp
  | cons p rest ih =>
    intro st
    rw [List.foldl_cons, ih]
    simp [addChunkNode, nodeKey]

theorem addChunkNodes_keys (source node_type key : String) (text : List Char)
    (ma : Bool) (st st' : BuildSt)
    (h : addChunkNodes source node_type key text ma st = some st') :
    st'.nodes.map nodeKey
      = st.nodes.map nodeKey ++ rangeKeys source key (numChunks text) := by
  rw [addChunkNodes] at h
  cases hct : chunk_text text 500 50 with
  | none => rw [hct] at h; exact absurd h (by simp)
  | some chunks =>
    rw [hct, Option.map_some'] at h
    obtain rfl : _ = st' := Option.some.inj h
    rw [chunkFold_keys]
    congr 1
    have hn : numChunks text = chunks.length := by
      rw [numChunks, hct]
      rfl
    rw [hn, rangeKeys, ← List.enum_map_fst chunks, List.map_map]
    rfl

theorem foldRowsM_keys {α : Type} (f : α → BuildSt → Option BuildSt)
    (g : α → List (String × String × Int))
    (hf : ∀ r st st', f r st = some st' →
      st'.nodes.map nodeKey = st.nodes.map nodeKey ++ g r) :
    ∀ (rows : List α) (st st' : BuildSt), foldRowsM f rows st = some st' →
      st'.nodes.map nodeKey = st.nodes.map nodeKey ++ rows.flatMap g := by
  intro rows
  induction rows with
  | nil =>
    intro st st' h
    rw [foldRowsM] at h
    obtain rfl : _ = st' := Option.some.inj h
    simp
  | cons r rest ih =>
    intro st st' h
    rw [foldRowsM] at h
    cases hr : f r st with
    | none => rw [hr] at h; exact absurd h (by simp)
    | some st₁ =>
      rw [hr] at h
      rw [ih st₁ st' h, hf r st st₁ hr, List.flatMap_cons, List.append_assoc]

theorem vcSectionStep_keys :
    ∀ (r : VCodeCleanRow) (st st' : BuildSt), vcSectionStep r st = some st' →
      st'.nodes.map nodeKey = st.nodes.map nodeKey ++
        (if r.«section» = "" then []
         else rangeKeys "virginia_code" r.«section» (numChunks r.clean_text)) := by
  intro r st st' h
  rw [vcSectionStep] at h
  by_cases hs : r.«section» = ""
  · rw [if_pos hs] at h
    obtain rfl : _ = st' := Option.some.inj h
    rw [if_pos hs]
    simp
  · rw [if_neg hs] at h
    rw [if_neg hs]
    exact addChunkNodes_keys _ _ _ _ _ _ _ h

theorem constSectionStep_keys :
    ∀ (r : ConstCleanRow) (st st' : BuildSt), constSectionStep r st = some st' →
      st'.nodes.map nodeKey = st.nodes.map nodeKey ++
        rangeKeys "constitution" (toString r.article_id ++ ":" ++ toString r.section_count)
          (numChunks r.clean_text) := by
  intro r st st' h
  rw [constSectionStep] at h
  exact addChunkNodes_keys _ _ _ _ _ _ _ h

theorem authStep_keys :
    ∀ (r : AuthCleanRow) (st st' : BuildSt), authStep r st = some st' →
      st'.nodes.map nodeKey = st.nodes.map nodeKey ++
        (if r.short_name = "" then []
         else rangeKeys "authorities" r.short_name (numChunks r.clean_text)) := by
  intro r st st' h
  rw [authStep] at h
  by_cases hs : r.short_name = ""
  · rw [if_pos hs] at h
    obtain rfl : _ = st' := Option.some.inj h
    rw [if_pos hs]
    simp
  · rw [if_neg hs] at h
    rw [if_neg hs]
    exact addChunkNodes_keys _ _ _ _ _ _ _ h

theorem popStep_keys :
    ∀ (r : PopNameCleanRow) (st st' : BuildSt), popStep r st = some st' →
      st'.nodes.map nodeKey = st.nodes.map nodeKey ++
        (if r.name = "" then []
         else rangeKeys "popular_names" r.name (numChunks r.clean_text)) := by
  intro r st st' h
  rw [popStep] at h
  by_cases hs : r.name = ""
  · rw [if_pos hs] at h
    obtain rfl : _ = st' := Option.some.inj h
    rw [if_pos hs]
    simp
  · rw [if_neg hs] at h
    rw [if_neg hs]
    exact addChunkNodes_keys _ _ _ _ _ _ _ h

theorem docStep_keys :
    ∀ (r : DocCleanRow) (st st' : BuildSt), docStep r st = some st' →
      st'.nodes.map nodeKey = st.nodes.map nodeKey ++
        (if r.filename = "" then []
         else rangeKeys "documents" r.filename (numChunks r.clean_text)) := by
  intro r st st' h
  rw [docStep] at h
  by_cases hs : r.filename = ""
  · rw [if_pos hs] at h
    obtain rfl : _ = st' := Option.some.inj h
    rw [if_pos hs]
    simp
  · rw [if_neg hs] at h
    rw [if_neg hs]
    exact addChunkNodes_keys _ _ _ _ _ _ _ h

theorem courtFold_keys :
    ∀ (rows : List CourtCleanRow) (st : BuildSt),
      ((rows.foldl courtStep st).nodes).map nodeKey
        = st.nodes.map nodeKey ++ courtKeyList rows := by
  intro rows
  induction rows with
  | nil => intro st; simp [courtKeyList]
  | cons r rest ih =>
    intro st
    rw [List.foldl_cons, ih]
    simp [courtStep, nodeKey, courtKeyList]

theorem build_nodes_keys (c : CleanedData) (r : NodeBuildResult)
    (h : build_nodes c = some r) : r.nodes.map nodeKey = allKeyList c := by
  rw [build_nodes] at h
  simp only [Option.bind_eq_some, Option.map_eq_some'] at h
  obtain ⟨st3, h3, st5, h5, st6, h6, st8, h8, st9, h9, hr⟩ := h
  subst hr
  have e3 := foldRowsM_keys vcSectionStep _ vcSectionStep_keys c.virginia_code _ _ h3
  have e5 := foldRowsM_keys constSectionStep _ constSectionStep_keys c.constitution _ _ h5
  have e6 := foldRowsM_keys authStep _ authStep_keys c.authorities _ _ h6
  have e8 := foldRowsM_keys popStep _ popStep_keys c.popular_names _ _ h8
  have e9 := foldRowsM_keys docStep _ docStep_keys c.documents _ _ h9
  show st9.nodes.map nodeKey = allKeyList c
  rw [e9, e8, courtFold_keys, e6, e5, addSynthNodes_keys, e3, addSynthNodes_keys,
    addSynthNodes_keys]
  simp only [allKeyList, vcKeyList, constKeyList, authKeyList, courtKeyList,
    popKeyList, docKeyList, List.map_map, List.nil_append, List.append_assoc,
    List.map_nil]
  rfl

theorem firstSeen_fst_nodup {α β : Type} [BEq α] [LawfulBEq α] :
    ∀ (l acc : List (α × β)), ((acc.map Prod.fst).Nodup) →
      ((firstSeen l acc).map Prod.fst).Nodup := by
  intro l
  induction l with
  | nil => intro acc h; exact h
  | cons kv rest ih =>
    intro acc h
    obtain ⟨k, v⟩ := kv
    rw [firstSeen]
    by_cases hany : acc.any (fun e => e.1 == k)
    · rw [if_pos hany]
      exact ih acc h
    · rw [if_neg hany]
      refine ih _ ?_
      rw [List.map_append]
      rw [List.nodup_append]
      refine ⟨h, by simp, ?_⟩
      intro a ha hb
      rcases List.mem_map.mp ha with ⟨e, he, rfl⟩
      simp only [List.map_cons, List.map_nil, List.mem_singleton] at hb
      exact hany (List.any_eq_true.mpr ⟨e, he, by simp [hb]⟩)

theorem titlesSeen_keys_nodup (rows : List VCodeCleanRow) :
    (vcTitleKeys rows).Nodup :=
  firstSeen_fst_nodup _ [] (by simp)

theorem chaptersSeen_keys_nodup (rows : List VCodeCleanRow) :
    (vcChapterKeys rows).Nodup :=
  firstSeen_fst_nodup _ [] (by simp)

theorem rangeKeys_nodup (source key : String) (n : Nat) :
    (rangeKeys source key n).Nodup := by
  refine List.Nodup.map ?_ (List.nodup_range n)
  intro a b hab
  have := congrArg (fun t => t.2.2) hab
  simpa using this

theorem mem_rangeKeys {x : String × String × Int} {source key : String} {n : Nat}
    (h : x ∈ rangeKeys source key n) : x.1 = source ∧ x.2.1 = key := by
  rcases List.mem_map.mp h with ⟨i, _, rfl⟩
  exact ⟨rfl, rfl⟩

theorem flatMap_rangeKeys_nodup {α : Type} (source : String) (key : α → String)
    (cnt : α → Nat) :
    ∀ (l : List α), ((l.map key).Nodup) →
      (l.flatMap (fun r => rangeKeys source (key r) (cnt r))).Nodup := by
  intro l
  induction l with
  | nil => intro _; simp
  | cons r rest ih =>
    intro h
    rw [List.map_cons, List.nodup_cons] at h
    rw [List.flatMap_cons, List.nodup_append]
    refine ⟨rangeKeys_nodup _ _ _, ih h.2, ?_⟩
    intro x hx hx'
    rcases List.mem_flatMap.mp hx' with ⟨r', hr', hxr'⟩
    have h1 := (mem_rangeKeys hx).2
    have h2 := (mem_rangeKeys hxr').2
    exact h.1 (by rw [← h1, h2]; exact List.mem_map_of_mem key hr')

theorem flatMap_guard_eq {α γ : Type} (p : α → Prop) [DecidablePred p]
    (f : α → List γ) :
    ∀ (l : List α), (l.flatMap (fun r => if p r then [] else f r))
      = (l.filter (fun r => decide (¬ p r))).flatMap f := by
  intro l
  induction l with
  | nil => simp
  | cons r rest ih =>
    rw [List.flatMap_cons, List.filter_cons]
    by_cases hp : p r
    · simp only [hp, if_true, decide_not, List.nil_append]
      rw [ih]
      simp [hp]
    · simp only [hp, if_false, decide_not]
      rw [ih]
      simp [hp, List.flatMap_cons]

theorem keyTriple_inj (src : String) :
    Function.Injective (fun k : String => (src, k, (0 : Int))) :=
  fun _ _ h => congrArg (fun t => t.2.1) h

theorem mem_vcKeyList {x : String × String × Int} {rows : List VCodeCleanRow}
    (h : x ∈ vcKeyList rows) :
    x.1 = "virginia_code" ∧
      (x.2.1 ∈ vcTitleKeys rows ∨ x.2.1 ∈ vcChapterKeys rows ∨
        x.2.1 ∈ vcSectionKeys rows) := by
  rw [vcKeyList] at h
  rcases List.mem_append.mp h with h | h
  · rcases List.mem_append.mp h with h | h
    · rcases List.mem_map.mp h with ⟨p, hp, rfl⟩
      exact ⟨rfl, Or.inl (List.mem_map_of_mem _ hp)⟩
    · rcases List.mem_map.mp h with ⟨p, hp, rfl⟩
      exact ⟨rfl, Or.inr (Or.inl (List.mem_map_of_mem _ hp))⟩
  · rw [flatMap_guard_eq (fun r : VCodeCleanRow => r.«section» = "")] at h
    rcases List.mem_flatMap.mp h with ⟨r, hr, hxr⟩
    obtain ⟨hsrc, hkey⟩ := mem_rangeKeys hxr
    refine ⟨hsrc, Or.inr (Or.inr ?_)⟩
    rw [hkey, vcSectionKeys]
    refine List.mem_map_of_mem _ ?_
    rcases List.mem_filter.mp hr with ⟨hmem, hcond⟩
    refine List.mem_filter.mpr ⟨hmem, ?_⟩
    simpa using hcond

theorem mem_constKeyList {x : String × String × Int} {rows : List ConstCleanRow}
    (h : x ∈ constKeyList rows) : x.1 = "constitution" := by
  rw [constKeyList] at h
  rcases List.mem_append.mp h with h | h
  · rcases List.mem_map.mp h with ⟨p, _, rfl⟩; rfl
  · rcases List.mem_flatMap.mp h with ⟨r, _, hxr⟩
    exact (mem_rangeKeys hxr).1

theorem mem_authKeyList {x : String × String × Int} {rows : List AuthCleanRow}
    (h : x ∈ authKeyList rows) : x.1 = "authorities" := by
  rw [authKeyList] at h
  rcases List.mem_flatMap.mp h with ⟨r, _, hxr⟩
  by_cases hs : r.short_name = ""
  · rw [if_pos hs] at hxr; exact absurd hxr (List.not_mem_nil x)
  · rw [if_neg hs] at hxr; exact (mem_rangeKeys hxr).1

theorem mem_courtKeyList {x : String × String × Int} {rows : List CourtCleanRow}
    (h : x ∈ courtKeyList rows) : x.1 = "courts" := by
  rcases List.mem_map.mp h with ⟨r, _, rfl⟩; rfl

theorem mem_popKeyList {x : String × String × Int} {rows : List PopNameCleanRow}
    (h : x ∈ popKeyList rows) : x.1 = "popular_names" := by
  rw [popKeyList] at h
  rcases List.mem_flatMap.mp h with ⟨r, _, hxr⟩
  by_cases hs : r.name = ""
  · rw [if_pos hs] at hxr; exact absurd hxr (List.not_mem_nil x)
  · rw [if_neg hs] at hxr; exact (mem_rangeKeys hxr).1

theorem mem_docKeyList {x : String × String × Int} {rows : List DocCleanRow}
    (h : x ∈ docKeyList rows) : x.1 = "documents" := by
  rw [docKeyList] at h
  rcases List.mem_flatMap.mp h with ⟨r, _, hxr⟩
  by_cases hs : r.filename = ""
  · rw [if_pos hs] at hxr; exact absurd hxr (List.not_mem_nil x)
  · rw [if_neg hs] at hxr; exact (mem_rangeKeys hxr).1

theorem disjoint_of_source {l₁ l₂ : List (String × String × Int)} {s₁ s₂ : String}
    (h₁ : ∀ x ∈ l₁, x.1 = s₁) (h₂ : ∀ x ∈ l₂, x.1 = s₂) (hne : s₁ ≠ s₂) :
    List.Disjoint l₁ l₂ := by
  intro x hx hx'
  exact hne ((h₁ x hx).symm.trans (h₂ x hx'))

theorem vcKeyList_nodup (rows : List VCodeCleanRow)
    (h1 : (vcSectionKeys rows).Nodup)
    (h2 : List.Disjoint (vcTitleKeys rows) (vcChapterKeys rows))
    (h3 : List.Disjoint (vcTitleKeys rows) (vcSectionKeys rows))
    (h4 : List.Disjoint (vcChapterKeys rows) (vcSectionKeys rows)) :
    (vcKeyList rows).Nodup := by
  rw [vcKeyList, List.nodup_append, List.nodup_append]
  have htit : ((titlesSeen rows).map
      (fun p => ("virginia_code", p.1, (0 : Int)))).Nodup := by
    have : (titlesSeen rows).map (fun p => ("virginia_code", p.1, (0 : Int)))
        = (vcTitleKeys rows).map (fun k => ("virginia_code", k, (0 : Int))) := by
      rw [vcTitleKeys, List.map_map]
      rfl
    rw [this]
    exact (titlesSeen_keys_nodup rows).map (keyTriple_inj _)
  have hch : ((chaptersSeen rows).map
      (fun p => ("virginia_code", p.1, (0 : Int)))).Nodup := by
    have : (chaptersSeen rows).map (fun p => ("virginia_code", p.1, (0 : Int)))
        = (vcChapterKeys rows).map (fun k => ("virginia_code", k, (0 : Int))) := by
      rw [vcChapterKeys, List.map_map]
      rfl
    rw [this]
    exact (chaptersSeen_keys_nodup rows).map (keyTriple_inj _)
  have hsec : (rows.flatMap (fun r =>
      if r.«section» = "" then []
      else rangeKeys "virginia_code" r.«section» (numChunks r.clean_text))).Nodup := by
    rw [flatMap_guard_eq (fun r : VCodeCleanRow => r.«section» = "")]
    refine flatMap_rangeKeys_nodup "virginia_code"
      (fun r : VCodeCleanRow => r.«section») _ _ ?_
    exact h1
  have hmem_tit : ∀ x ∈ (titlesSeen rows).map
      (fun p => ("virginia_code", p.1, (0 : Int))), x.2.1 ∈ vcTitleKeys rows := by
    intro x hx
    rcases List.mem_map.mp hx with ⟨p, hp, rfl⟩
    exact List.mem_map_of_mem _ hp
  have hmem_ch : ∀ x ∈ (chaptersSeen rows).map
      (fun p => ("virginia_code", p.1, (0 : Int))), x.2.1 ∈ vcChapterKeys rows := by
    intro x hx
    rcases List.mem_map.mp hx with ⟨p, hp, rfl⟩
    exact List.mem_map_of_mem _ hp
  have hmem_sec : ∀ x ∈ rows.flatMap (fun r =>
      if r.«section» = "" then []
      else rangeKeys "virginia_code" r.«section» (numChunks r.clean_text)),
      x.2.1 ∈ vcSectionKeys rows := by
    intro x hx
    rw [flatMap_guard_eq (fun r : VCodeCleanRow => r.«section» = "")] at hx
    rcases List.mem_flatMap.mp hx with ⟨r, hr, hxr⟩
    rw [(mem_rangeKeys hxr).2, vcSectionKeys]
    refine List.mem_map_of_mem _ ?_
    rcases List.mem_filter.mp hr with ⟨hmem, hcond⟩
    refine List.mem_filter.mpr ⟨hmem, by simpa using hcond⟩
  refine ⟨⟨htit, hch, ?_⟩, hsec, ?_⟩
  · intro x hx hx'
    exact h2 (hmem_tit x hx) (hmem_ch x hx')
  · intro x hx hx'
    rcases List.mem_append.mp hx with h | h
    · exact h3 (hmem_tit x h) (hmem_sec x hx')
    · exact h4 (hmem_ch x h) (hmem_sec x hx')

theorem constKeyList_nodup (rows : List ConstCleanRow)
    (h5 : (constArticleKeys rows).Nodup)
    (h6 : (constSectionKeys rows).Nodup)
    (h7 : List.Disjoint (constArticleKeys rows) (constSectionKeys rows)) :
    (constKeyList rows).Nodup := by
  rw [constKeyList, List.nodup_append]
  have hart : ((articlesSeen rows).map
      (fun p => ("constitution", "article:" ++ toString p.1, (0 : Int)))).Nodup := by
    have : (articlesSeen rows).map
        (fun p => ("constitution", "article:" ++ toString p.1, (0 : Int)))
        = (constArticleKeys rows).map (fun k => ("constitution", k, (0 : Int))) := by
      rw [constArticleKeys, List.map_map]
      rfl
    rw [this]
    exact h5.map (keyTriple_inj _)
  have hsec : (rows.flatMap (fun r =>
      rangeKeys "constitution" (toString r.article_id ++ ":" ++ toString r.section_count)
        (numChunks r.clean_text))).Nodup :=
    flatMap_rangeKeys_nodup "constitution" _ _ rows h6
  refine ⟨hart, hsec, ?_⟩
  intro x hx hx'
  rcases List.mem_map.mp hx with ⟨p, hp, rfl⟩
  rcases List.mem_flatMap.mp hx' with ⟨r, hr, hxr⟩
  have hk := (mem_rangeKeys hxr).2
  refine h7 (List.mem_map_of_mem _ hp) ?_
  have hk' : "article:" ++ toString p.1
      = toString r.article_id ++ ":" ++ toString r.section_count := hk
  rw [hk']
  exact List.mem_map_of_mem _ hr

theorem allKeyList_nodup (c : CleanedData)
    (h1 : (vcSectionKeys c.virginia_code).Nodup)
    (h2 : List.Disjoint (vcTitleKeys c.virginia_code) (vcChapterKeys c.virginia_code))
    (h3 : List.Disjoint (vcTitleKeys c.virginia_code) (vcSectionKeys c.virginia_code))
    (h4 : List.Disjoint (vcChapterKeys c.virginia_code) (vcSectionKeys c.virginia_code))
    (h5 : (constArticleKeys c.constitution).Nodup)
    (h6 : (constSectionKeys c.constitution).Nodup)
    (h7 : List.Disjoint (constArticleKeys c.constitution) (constSectionKeys c.constitution))
    (h8 : (authKeys c.authorities).Nodup)
    (h9 : (courtKeys c.courts).Nodup)
    (h10 : (popKeys c.popular_names).Nodup)
    (h11 : (docKeys c.documents).Nodup) :
    (allKeyList c).Nodup := by
  have hauth : (authKeyList c.authorities).Nodup := by
    rw [authKeyList, flatMap_guard_eq (fun r : AuthCleanRow => r.short_name = "")]
    exact flatMap_rangeKeys_nodup "authorities" (fun r : AuthCleanRow => r.short_name) _ _ h8
  have hcourt : (courtKeyList c.courts).Nodup := by
    have : courtKeyList c.courts
        = (courtKeys c.courts).map (fun k => ("courts", k, (0 : Int))) := by
      rw [courtKeyList, courtKeys, List.map_map]
      rfl
    rw [this]
    exact h9.map (keyTriple_inj _)
  have hpop : (popKeyList c.popular_names).Nodup := by
    rw [popKeyList, flatMap_guard_eq (fun r : PopNameCleanRow => r.name = "")]
    exact flatMap_rangeKeys_nodup "popular_names" (fun r : PopNameCleanRow => r.name) _ _ h10
  have hdoc : (docKeyList c.documents).Nodup := by
    rw [docKeyList, flatMap_guard_eq (fun r : DocCleanRow => r.filename = "")]
    exact flatMap_rangeKeys_nodup "documents" (fun r : DocCleanRow => r.filename) _ _ h11
  have hvc : (vcKeyList c.virginia_code).Nodup := vcKeyList_nodup _ h1 h2 h3 h4
  have hconst : (constKeyList c.constitution).Nodup := constKeyList_nodup _ h5 h6 h7
  rw [allKeyList]
  rw [List.append_assoc, List.append_assoc, List.append_assoc, List.append_assoc]
  rw [List.nodup_append]
  refine ⟨hvc, ?_, ?_⟩
  · rw [List.nodup_append]
    refine ⟨hconst, ?_, ?_⟩
    · rw [List.nodup_append]
      refine ⟨hauth, ?_, ?_⟩
      · rw [List.nodup_append]
        refine ⟨hcourt, ?_, ?_⟩
        · rw [List.nodup_append]
          exact ⟨hpop, hdoc, disjoint_of_source (fun x hx => mem_popKeyList hx)
            (fun x hx => mem_docKeyList hx) (by decide)⟩
        · intro x hx hx'
          rcases List.mem_append.mp hx' with h | h
          · exact absurd ((mem_courtKeyList hx).symm.trans (mem_popKeyList h))
              (by decide)
          · exact absurd ((mem_courtKeyList hx).symm.trans (mem_docKeyList h))
              (by decide)
      · intro x hx hx'
        rcases List.mem_append.mp hx' with h | h
        · exact absurd ((mem_authKeyList hx).symm.trans (mem_courtKeyList h))
            (by decide)
        rcases List.mem_append.mp h with h | h
        · exact absurd ((mem_authKeyList hx).symm.trans (mem_popKeyList h))
            (by decide)
        · exact absurd ((mem_authKeyList hx).symm.trans (mem_docKeyList h))
            (by decide)
    · intro x hx hx'
      rcases List.mem_append.mp hx' with h | h
      · exact absurd ((mem_constKeyList hx).symm.trans (mem_authKeyList h))
          (by decide)
      rcases List.mem_append.mp h with h | h
      · exact absurd ((mem_constKeyList hx).symm.trans (mem_courtKeyList h))
          (by decide)
      rcases List.mem_append.mp h with h | h
      · exact absurd ((mem_constKeyList hx).symm.trans (mem_popKeyList h))
          (by decide)
      · exact absurd ((mem_constKeyList hx).symm.trans (mem_docKeyList h))
          (by decide)
  · intro x hx hx'
    have hs := (mem_vcKeyList hx).1
    rcases List.mem_append.mp hx' with h | h
    · exact absurd (hs.symm.trans (mem_constKeyList h)) (by decide)
    rcases List.mem_append.mp h with h | h
    · exact absurd (hs.symm.trans (mem_authKeyList h)) (by decide)
    rcases List.mem_append.mp h with h | h
    · exact absurd (hs.symm.trans (mem_courtKeyList h)) (by decide)
    rcases List.mem_append.mp h with h | h
    · exact absurd (hs.symm.trans (mem_popKeyList h)) (by decide)
    · exact absurd (hs.symm.trans (mem_docKeyList h)) (by decide)

theorem tripleUnique_of_nodup {nodes : List Node}
    (h : (nodes.map nodeKey).Nodup) : tripleUnique nodes := by
  rw [List.Nodup, List.pairwise_map] at h
  refine h.imp ?_
  intro a b hne ⟨e1, e2, e3⟩
  exact hne (by rw [nodeKey, nodeKey, e1, e2, e3])

/-- C1 amended: the `(source, source_id, chunk_idx)` triple is unique
across the nodes `build_nodes` returns *provided* the structural keys
are pairwise distinct within each source table and the synthetic
title/chapter keys collide neither with each other nor with section
keys.  As stated ("for every input, even when two input records share
the same structural key") the claim is false: two records with the same
key each restart `chunk_idx` at 0 (and the upstream ETL dedup is by
`clean_text` only, so duplicate keys do reach `build_nodes`). -/
theorem build_nodes_triple_unique (c : CleanedData) (r : NodeBuildResult)
    (h : build_nodes c = some r)
    (h1 : (vcSectionKeys c.virginia_code).Nodup)
    (h2 : List.Disjoint (vcTitleKeys c.virginia_code) (vcChapterKeys c.virginia_code))
    (h3 : List.Disjoint (vcTitleKeys c.virginia_code) (vcSectionKeys c.virginia_code))
    (h4 : List.Disjoint (vcChapterKeys c.virginia_code) (vcSectionKeys c.virginia_code))
    (h5 : (constArticleKeys c.constitution).Nodup)
    (h6 : (constSectionKeys c.constitution).Nodup)
    (h7 : List.Disjoint (constArticleKeys c.constitution) (constSectionKeys c.constitution))
    (h8 : (authKeys c.authorities).Nodup)
    (h9 : (courtKeys c.courts).Nodup)
    (h10 : (popKeys c.popular_names).Nodup)
    (h11 : (docKeys c.documents).Nodup) :
    tripleUnique r.nodes := by
  refine tripleUnique_of_nodup ?_
  rw [build_nodes_keys c r h]
  exact allKeyList_nodup c h1 h2 h3 h4 h5 h6 h7 h8 h9 h10 h11

/-- C1 witness: the uniqueness theorem applied at a concrete input with
one record per table. -/
theorem build_nodes_triple_unique_witness :
    tripleUnique [⟨1, "virginia_code", "1", 0, "title", true⟩,
      ⟨2, "virginia_code", "1-1", 0, "section", false⟩,
      ⟨3, "documents", "f.txt", 0, "manual_chunk", false⟩] :=
  build_nodes_triple_unique
    ⟨[⟨"1-1", "1", "Title One", "", "", "law text".toList⟩], [], [], [], [],
      [⟨"f.txt", "doc body".toList⟩]⟩
    ⟨[⟨1, "virginia_code", "1", 0, "title", true⟩,
      ⟨2, "virginia_code", "1-1", 0, "section", false⟩,
      ⟨3, "documents", "f.txt", 0, "manual_chunk", false⟩],
      [(("virginia_code", "1"), [1]), (("virginia_code", "1-1"), [2]),
        (("documents", "f.txt"), [3])],
      [(1, "Title One".toList), (2, "law text".toList), (3, "doc body".toList)],
      [⟨3, 0, 8⟩]⟩
    (by decide) (by decide) (by decide) (by decide) (by decide) (by decide)
    (by decide) (by decide) (by decide) (by decide) (by decide) (by decide)

/-- C1 counterexample: two Virginia Code records sharing section key
`"1-1"` (with different texts, so the clean-text dedup keeps both) each
emit a node with triple `(virginia_code, "1-1", 0)`; and a record whose
`title_num` equals its `section` gives a synthetic title node and a
chunk node with the same triple `(virginia_code, "1", 0)`. -/
theorem build_nodes_triple_unique_cex :
    ¬ tripleUnique (nodesOf
        ⟨[⟨"1-1", "", "", "", "", "xx yy".toList⟩,
          ⟨"1-1", "", "", "", "", "zz ww".toList⟩], [], [], [], [], []⟩) ∧
      ¬ tripleUnique (nodesOf
        ⟨[⟨"1", "1", "T", "", "", "some law".toList⟩], [], [], [], [], []⟩) := by
  constructor <;> decide
